import Mathlib

/-!
# Verification of the pneumothorax segmentation Stage-2 pipeline

Shallow embedding of `efficientnet_seg/inference/segmentation.py`
(`Stage2`, `TTA_Segmentation_All`, `run_seg_prediction`,
`edit_classification_df`) together with spec-modelled versions of the
collaborators that are not part of the sources under study
(the mask run-length codec `mask2rle`/`rle2mask` and the post-processor
`post_process_all`, both reconstructed from the specification's contracts).

Numpy arrays are embedded as a shape (list of dimension sizes) paired with
the C-order flat data list over `ℚ` (exact rational arithmetic in place of
floating point).  `np.squeeze` is the removal of every size-1 axis from the
shape with the flat data unchanged, which is exactly numpy's semantics.
Operations such as `np.mean(np.stack [...], axis=0)` require all operands
to share one shape in numpy (`np.stack` raises otherwise); the embedding
computes the result pointwise over the flat data and takes the shape of the
first operand, and the theorems below carry the equal-shape hypotheses that
numpy enforces dynamically.
-/

namespace PneumoSeg

/-! ## Generic list helpers -/

/-- Fuel-driven worker for `chunks`, structurally recursive in the fuel so
that it evaluates by kernel reduction. -/
def chunksF : ℕ → ℕ → List α → List (List α)
  | 0, _, _ => []
  | _ + 1, _, [] => []
  | fuel + 1, k, a :: rest =>
    if k = 0 then []
    else (a :: rest).take k :: chunksF fuel k ((a :: rest).drop k)

/-- Split a list into consecutive chunks of size `k` (the last chunk may be
shorter).  Used to move between the flat C-order data of an array and its
rows/blocks. -/
def chunks (k : ℕ) (l : List α) : List (List α) := chunksF l.length k l


/-! ## NDArray model -/

/-- A numpy `ndarray`: the list of dimension sizes plus the C-order flat
data.  Well-formed arrays satisfy `data.length = shape.prod`; the
embedding keeps the two components independent and the theorems state the
well-formedness they need. -/
structure NDArr where
  shape : List ℕ
  data : List ℚ
deriving DecidableEq

/-- Embedding of `np.asarray [np.fliplr x for x in a]` for a batch `a` of shape
`(N, H, W, ...)`: reverse axis 2 (the per-image axis 1, i.e. the left-right
axis).  The flat data is cut into the `N*H` row blocks of size
`W * inner` and the `W` cells of size `inner` inside each block are
reversed. -/
def flipAxis2 (a : NDArr) : NDArr :=
  let W := a.shape.getD 2 0
  let inner := (a.shape.drop 3).prod
  ⟨a.shape,
   ((chunks (W * inner) a.data).map
     (fun blk => ((chunks inner blk).reverse).flatten)).flatten⟩

/-- Embedding of `np.mean` of a two-element stack along axis 0, on two
same-shape arrays: the pointwise arithmetic mean.  (`np.stack` requires the shapes to be equal; the
embedding takes the shape of the first argument.) -/
def npMeanPair (a b : NDArr) : NDArr :=
  ⟨a.shape, List.zipWith (fun p q => (p + q) / 2) a.data b.data⟩

/-- Flat data of `np.mean` of a stack `ds` along axis 0: the pointwise mean of
the stacked flat data lists (all the same length in a legal `np.stack`). -/
def npStackMeanData (ds : List (List ℚ)) : List ℚ :=
  (List.range (ds.headD []).length).map
    (fun i => (ds.map (fun d => d.getD i 0)).sum / (ds.length : ℚ))

/-- Embedding of `np.squeeze`: every size-1 axis is removed from the shape; the C-order
data is unchanged. -/
def npSqueezeShape (s : List ℕ) : List ℕ := s.filter (fun d => d ≠ 1)

/-- A model is an opaque predictor mapping an input batch array to a
prediction batch array (`model.predict`), deterministic with fixed
weights; `batch_size` only controls internal chunking and is dropped. -/
def Model : Type := NDArr → NDArr

/-- The `seg_model` argument is either a single model or a list of models to ensemble,
mirroring the `isinstance(seg_model, (list, tuple))` branching. -/
inductive SegModelInput where
  | one (M : Model)
  | many (ms : List Model)

/-- The underlying model list of a `seg_model` argument. -/
def modelsOf : SegModelInput → List Model
  | .one M => [M]
  | .many ms => ms

/-! ## TTA and the prediction runner (from `segmentation.py`) -/

/-- Embedding of `TTA_Segmentation_All(model, test_arrays)`: predict on the batch, on
the left-right flipped batch, flip the second prediction back, average
the two elementwise. -/
def TTA_Segmentation_All (M : Model) (x : NDArr) : NDArr :=
  let preds_test := M x
  let x_flip := flipAxis2 x
  let preds_test_tta := M x_flip
  let preds_test_tta_back := flipAxis2 preds_test_tta
  npMeanPair preds_test preds_test_tta_back

/-- Embedding of `run_seg_prediction(x_test, seg_model, batch_size, tta)`: per-model
(optionally TTA) prediction, `np.mean(np.stack ...)` across an ensemble,
and a final `.squeeze()`. -/
def run_seg_prediction (x : NDArr) (m : SegModelInput) (tta : Bool) : NDArr :=
  match m, tta with
  | .many ms, true =>
    let preds := ms.map (fun M => TTA_Segmentation_All M x)
    ⟨npSqueezeShape ((preds.headD ⟨[], []⟩).shape),
     npStackMeanData (preds.map (fun p => p.data))⟩
  | .many ms, false =>
    let preds := ms.map (fun M => M x)
    ⟨npSqueezeShape ((preds.headD ⟨[], []⟩).shape),
     npStackMeanData (preds.map (fun p => p.data))⟩
  | .one M, true =>
    let p := TTA_Segmentation_All M x
    ⟨npSqueezeShape p.shape, p.data⟩
  | .one M, false =>
    let p := M x
    ⟨npSqueezeShape p.shape, p.data⟩

/-- The batches handed to `model.predict` inside `TTA_Segmentation_All`,
in call order (instrumentation used to express "inference was/was not
invoked"). -/
def predictCallsTTA (x : NDArr) : List NDArr := [x, flipAxis2 x]

/-- The batches handed to `model.predict` during `run_seg_prediction`, in
call order. -/
def predictCallsRun (m : SegModelInput) (x : NDArr) (tta : Bool) : List NDArr :=
  match m, tta with
  | .many ms, true => ms.flatMap (fun _ => predictCallsTTA x)
  | .many ms, false => ms.map (fun _ => x)
  | .one _, true => predictCallsTTA x
  | .one _, false => [x]

/-! ## Mask run-length codec

`efficientnet_seg/inference/mask_functions.py` is not among the sources
under study; the codec is modelled from the specification's §4.3
contract. -/

/-- Modelled from the spec: the column-major scan of a binary mask with
declared dimensions `height × width` ("scan down each column, then move to
next column"); missing source `mask_functions.py`.  Out-of-range reads are
background. -/
def scanCM (m : List (List Bool)) (height width : ℕ) : List Bool :=
  (List.range width).flatMap
    (fun w => (List.range height).map (fun h => (m.getD h []).getD w false))

/-- Modelled from the spec: the maximal runs of `true` in scan order,
as (start offset, length) pairs with offsets counted from `i`; missing
source `mask_functions.py`. -/
def runsD (l : List Bool) (i : ℕ) : List (ℕ × ℕ) :=
  match l with
  | [] => []
  | false :: rest => runsD rest (i + 1)
  | true :: rest =>
    (i, 1 + (rest.takeWhile id).length) ::
      runsD (rest.dropWhile id) (i + 1 + (rest.takeWhile id).length)
termination_by l.length
decreasing_by
  · simp
  · have hsub : (rest.dropWhile id).length ≤ rest.length := by
      have : ∀ (t : List Bool), (t.dropWhile id).length ≤ t.length := by
        intro t
        induction t with
        | nil => simp [List.dropWhile]
        | cons a t ih => simp only [List.dropWhile]; cases a <;> simp <;> omega
      exact this rest
    simp
    omega

/-- Whether scan position `p` is covered by one of the runs. -/
def coveredB (rs : List (ℕ × ℕ)) (p : ℕ) : Bool :=
  rs.any (fun r => decide (r.1 ≤ p ∧ p < r.1 + r.2))

/-- Decimal rendering of a natural number as characters. -/
def renderNat (n : ℕ) : List Char :=
  if n = 0 then ['0'] else ((Nat.digits 10 n).map Nat.digitChar).reverse

/-- Numeric value of a decimal digit character. -/
def charVal (c : Char) : ℕ := c.toNat - 48

/-- Whether a character is a decimal digit. -/
def isDigitCh (c : Char) : Bool := decide ('0' ≤ c ∧ c ≤ '9')

/-- Parse a non-empty all-digit character list as a decimal natural. -/
def parseNatChars (cs : List Char) : Option ℕ :=
  if !cs.isEmpty && cs.all isDigitCh then
    some (Nat.ofDigits 10 ((cs.map charVal).reverse))
  else none

/-- Split a character list at the spaces (the inverse of joining tokens
with single spaces). -/
def splitSpAux (cs : List Char) (acc : List Char) : List (List Char) :=
  match cs with
  | [] => [acc.reverse]
  | c :: rest =>
    if c = ' ' then acc.reverse :: splitSpAux rest []
    else splitSpAux rest (c :: acc)

def splitSp (cs : List Char) : List (List Char) := splitSpAux cs []

/-- Modelled from the spec: the encoding body, "the ordered sequence of
(run start offset, run length) pairs, space-separated"; missing source
`mask_functions.py`. -/
def renderRuns : List (ℕ × ℕ) → List Char
  | [] => []
  | [r] => renderNat r.1 ++ ' ' :: renderNat r.2
  | r :: rest => renderNat r.1 ++ ' ' :: renderNat r.2 ++ ' ' :: renderRuns rest

/-- The flat token sequence of a run list (starts and lengths
interleaved). -/
def tokensOf (rs : List (ℕ × ℕ)) : List ℕ := rs.flatMap (fun r => [r.1, r.2])

/-- Group a flat token list into (start, length) pairs; an odd number of
tokens is malformed. -/
def pairUp : List ℕ → Option (List (ℕ × ℕ))
  | [] => some []
  | [_] => none
  | s :: len :: rest => (pairUp rest).map (fun ps => (s, len) :: ps)

/-- Parse an encoding body back into runs; `none` on any non-numeric token
or odd token count (EncodingAmbiguity is reported, not coerced). -/
def parseRuns (cs : List Char) : Option (List (ℕ × ℕ)) :=
  match (splitSp cs).mapM parseNatChars with
  | some ns => pairUp ns
  | none => none

/-- The scan sequence of length `n` covered by the given runs. -/
def decodeScan (rs : List (ℕ × ℕ)) (n : ℕ) : List Bool :=
  (List.range n).map (fun p => coveredB rs p)

/-- Rebuild the `height × width` mask from a column-major scan sequence
(scan position of pixel `(h, w)` is `w * height + h`). -/
def unscanCM (scan : List Bool) (height width : ℕ) : List (List Bool) :=
  (List.range height).map
    (fun h => (List.range width).map (fun w => scan.getD (w * height + h) false))

/-- The all-background mask. -/
def zeroMask (height width : ℕ) : List (List Bool) :=
  List.replicate height (List.replicate width false)

/-- A binary mask of the declared `height × width` dimensions. -/
def ValidMask (m : List (List Bool)) (height width : ℕ) : Prop :=
  m.length = height ∧ ∀ row ∈ m, row.length = width

/-- Modelled from the spec: `mask_to_rle(binary_mask, height, width)`;
an all-background mask encodes to the sentinel string `"-1"`, any other
mask to the space-separated (start, length) pairs of its maximal
column-major runs; missing source `mask_functions.py`. -/
def mask2rle (m : List (List Bool)) (height width : ℕ) : String :=
  let scan := scanCM m height width
  if scan.all (fun b => !b) then "-1"
  else String.mk (renderRuns (runsD scan 0))

/-- Modelled from the spec: `rle_to_mask(encoding, height, width)`; the
sentinel `"-1"` is specially recognized (not parsed as a numeric run
list) and decodes to the all-background mask; missing source
`mask_functions.py`. -/
def rle2mask (s : String) (height width : ℕ) : Option (List (List Bool)) :=
  if s = "-1" then some (zeroMask height width)
  else
    match parseRuns s.data with
    | some rs => some (unscanCM (decodeScan rs (height * width)) height width)
    | none => none

/-! ## Post-processor

`efficientnet_seg/inference/utils.py` is not among the sources under
study; `post_process_all` is modelled from the specification's §4.2
contract. -/

/-- Modelled from the spec: `binary_mask[i,j] = 1 if mask[i,j] > threshold
else 0` (strict greater-than), with `1` embedded as `true`; missing source
`utils.py`. -/
def binarize (mask : List (List ℚ)) (threshold : ℚ) : List (List Bool) :=
  mask.map (fun row => row.map (fun v => decide (v > threshold)))

/-- Coordinates of the foreground pixels of a binary mask. -/
def fgCoords (m : List (List Bool)) : List (ℕ × ℕ) :=
  m.enum.flatMap
    (fun hr => hr.2.enum.filterMap
      (fun wc => if wc.2 then some (hr.1, wc.1) else none))

/-- 8-connectivity: distinct cells whose coordinates differ by at most one
in each axis (diagonal adjacency counts). -/
def adj8 (p q : ℕ × ℕ) : Bool :=
  decide (p ≠ q ∧ max p.1 q.1 - min p.1 q.1 ≤ 1 ∧ max p.2 q.2 - min p.2 q.2 ≤ 1)

/-- One step of connected-component growth inside the foreground set. -/
def growComp (fg : List (ℕ × ℕ)) (s : List (ℕ × ℕ)) : List (ℕ × ℕ) :=
  (s ++ fg.filter (fun q => s.any (fun p => adj8 p q))).dedup

/-- The 8-connected component of `p` inside the foreground set, computed by
saturating the growth step (at most `fg.length` steps are needed). -/
def compOf (fg : List (ℕ × ℕ)) (p : ℕ × ℕ) : List (ℕ × ℕ) :=
  Nat.iterate (growComp fg) fg.length [p]

/-- Modelled from the spec: threshold, then zero out every 8-connected
foreground component whose pixel count is strictly below `min_size`
(components of size exactly `min_size` are kept); missing source
`utils.py`. -/
def post_process_single (mask : List (List ℚ)) (threshold : ℚ) (min_size : ℕ) :
    List (List Bool) :=
  let bin := binarize mask threshold
  let fg := fgCoords bin
  bin.enum.map
    (fun hr => hr.2.enum.map
      (fun wc => wc.2 && decide (min_size ≤ (compOf fg (hr.1, wc.1)).length)))

/-- Iterating a squeezed `(N, H, W)` prediction array over its first axis
yields the `N` probability masks, each an `H × W` grid. -/
def toMasks (a : NDArr) : List (List (List ℚ)) :=
  let H := a.shape.getD 1 0
  let W := a.shape.getD 2 0
  (chunks (H * W) a.data).map (fun blk => chunks W blk)

/-- Modelled from the spec: the batch form
`post_process_all(masks, threshold, min_size)`; missing source
`utils.py`. -/
def post_process_all (preds : NDArr) (threshold : ℚ) (min_size : ℕ) :
    List (List (List Bool)) :=
  (toMasks preds).map (fun m => post_process_single m threshold min_size)

/-! ## The classification table and the Stage-2 orchestrator -/

/-- One row of the classification submission dataframe. -/
structure Record where
  ImageId : String
  EncodedPixels : String
deriving DecidableEq

/-- A decoded image: an `H × W × C` numeric grid (spec §6, image-loading
collaborator). -/
def Img : Type := List (List (List ℚ))

/-- C-order flattening of one image. -/
def flat3 (im : Img) : List ℚ := (im.map (fun row => row.flatten)).flatten

/-- Embedding of `np.asarray` of a list of `s × s × c` images: the `(N, s, s, c)`
batch array. -/
def mkArr (imgs : List Img) (s c : ℕ) : NDArr :=
  ⟨[imgs.length, s, s, c], (imgs.map flat3).flatten⟩

/-- Python `sorted` on strings: lexicographic by code point, which is the
`LinearOrder String` order.  (Python uses a stable mergesort; on a linear
order the sorted arrangement of a list is unique because equal strings
are identical, so a structurally recursive insertion sort is an
equivalent embedding.) -/
def sortStr (l : List String) : List String :=
  l.insertionSort (· ≤ ·)

/-- The selection phase's identifier list:
`sorted(sub_df.loc[sub_df["EncodedPixels"] == 1, "ImageId"].tolist())` —
the identifiers whose encoded-mask field holds the "positive, mask
pending" sentinel (the classification stage's `1`), sorted. -/
def stage2SegIds (df : List Record) : List String :=
  sortStr ((df.filter (fun r => r.EncodedPixels = "1")).map (fun r => r.ImageId))

/-- Embedding of `sorted([fpath for fpath in test_fpaths if Path(fpath).stem in seg_ids])`.
`stem` is the `pathlib` collaborator, passed in as an opaque function. -/
def stage2Fpaths (stem : String → String) (df : List Record)
    (fpaths : List String) : List String :=
  sortStr (fpaths.filter (fun p => (stage2SegIds df).contains (stem p)))

/-- The loaded, preprocessed test batch.  `load` is the image-loading
collaborator (`load_input`); the default `preprocess_input` is an
identity-like numeric cast, the identity here over `ℚ`. -/
def stage2X (stem : String → String) (load : String → ℕ → ℕ → Img)
    (df : List Record) (fpaths : List String) (img_size channels : ℕ) : NDArr :=
  mkArr ((stage2Fpaths stem df fpaths).map (fun p => load p img_size channels))
    img_size channels

/-- The post-processed binary masks of a Stage-2 run. -/
def stage2Masks (stem : String → String) (load : String → ℕ → ℕ → Img)
    (seg_model : SegModelInput) (df : List Record) (fpaths : List String)
    (img_size channels : ℕ) (tta : Bool) (threshold : ℚ)
    (min_roi_size : ℕ) : List (List (List Bool)) :=
  post_process_all
    (run_seg_prediction (stage2X stem load df fpaths img_size channels)
      seg_model tta)
    threshold min_roi_size

/-- Embedding of `edit_classification_df(df, preds_seg, p_ids)`: run-length encode each
predicted mask with declared dimensions 1024 × 1024, write each encoding
into every record whose `ImageId` matches the paired identifier, then
force any still-blank encoded-mask field to `"-1"`. -/
def edit_classification_df (df : List Record) (preds : List (List (List Bool)))
    (p_ids : List String) : List Record :=
  let rles := preds.map (fun pred => mask2rle pred 1024 1024)
  let df1 := (p_ids.zip rles).foldl
    (fun d w => d.map (fun r => if r.ImageId = w.1 then ⟨r.ImageId, w.2⟩ else r))
    df
  df1.map (fun r => if r.EncodedPixels = "" then ⟨r.ImageId, "-1"⟩ else r)

/-- Embedding of `Stage2(...)`: selection phase, the `assert` comparing resolved stems
with the selected identifiers (the spec's SelectionMismatch, fatal before
any inference), then inference, post-processing and the dataframe merge.
The first component is the resulting table (the csv side effect is the
returned value; the optional `.npy` dump is a dropped side effect); the
second component is the list of batches handed to `model.predict`
(empty when the run aborts before inference). -/
def Stage2 (stem : String → String) (load : String → ℕ → ℕ → Img)
    (seg_model : SegModelInput) (sub_df : List Record)
    (test_fpaths : List String) (channels img_size : ℕ) (tta : Bool)
    (threshold : ℚ) (min_roi_size : ℕ) :
    Except String (List Record) × List NDArr :=
  let seg_ids := stage2SegIds sub_df
  let x_test_fpaths := stage2Fpaths stem sub_df test_fpaths
  if x_test_fpaths.map stem = seg_ids then
    (.ok (edit_classification_df sub_df
      (stage2Masks stem load seg_model sub_df test_fpaths img_size channels
        tta threshold min_roi_size) seg_ids),
     predictCallsRun seg_model
       (stage2X stem load sub_df test_fpaths img_size channels) tta)
  else (.error "SelectionMismatch", [])

/-! ## Concrete instances used in witnesses and counterexamples -/

/-- A non-empty batch holding a single 2×2×1 image (leading axis 1). -/
def oneImgBatch : NDArr := ⟨[1, 2, 2, 1], [0, 0, 0, 0]⟩

/-- A model returning a constant single-image prediction batch. -/
def oneImgModel : Model := fun _ => ⟨[1, 2, 2, 1], [0, 0, 0, 0]⟩

/-- A batch of two 2×2×1 images. -/
def twoImgBatch : NDArr := ⟨[2, 2, 2, 1], List.replicate 8 0⟩

/-- The all-zeros constant model on two-image batches. -/
def zerosModel : Model := fun _ => ⟨[2, 2, 2, 1], List.replicate 8 0⟩

/-- The all-ones constant model on two-image batches. -/
def onesModel : Model := fun _ => ⟨[2, 2, 2, 1], List.replicate 8 1⟩

/-- The identity model (trivially commutes with the left-right flip). -/
def idModel : Model := fun a => a

/-- A trivial filename-stem collaborator. -/
def idStem : String → String := fun s => s

/-- A trivial image-loading collaborator. -/
def noLoad : String → ℕ → ℕ → Img := fun _ _ _ => []

/-- A model returning the empty prediction array. -/
def emptyModel : Model := fun _ => ⟨[], []⟩

/-! ## Helper lemmas -/

theorem chunksF_fuel_irrelevant (k : ℕ) :
    ∀ (fuel fuel' : ℕ) (l : List α), l.length ≤ fuel → l.length ≤ fuel' →
      chunksF fuel k l = chunksF fuel' k l := by
  intro fuel
  induction fuel with
  | zero =>
    intro fuel' l h h'
    have : l = [] := List.eq_nil_of_length_eq_zero (Nat.le_zero.mp h)
    subst this
    cases fuel' <;> rfl
  | succ f ih =>
    intro fuel' l h h'
    rcases l with _ | ⟨a, rest⟩
    · cases fuel' <;> rfl
    · rcases fuel' with _ | f'
      · simp at h'
      · simp only [chunksF]
        by_cases hk : k = 0
        · simp [hk]
        · simp only [if_neg hk]
          congr 1
          have hk' : 0 < k := Nat.pos_of_ne_zero hk
          have hd : ((a :: rest).drop k).length ≤ f := by
            simp only [List.length_drop, List.length_cons]
            simp only [List.length_cons] at h
            omega
          have hd' : ((a :: rest).drop k).length ≤ f' := by
            simp only [List.length_drop, List.length_cons]
            simp only [List.length_cons] at h'
            omega
          exact ih f' _ hd hd'

theorem chunks_nil (k : ℕ) : chunks k ([] : List α) = [] := rfl

theorem chunks_cons_of_ne (k : ℕ) (l : List α) (hk : k ≠ 0) (hl : l ≠ []) :
    chunks k l = (l.take k) :: chunks k (l.drop k) := by
  match l with
  | [] => exact absurd rfl hl
  | a :: rest =>
    show chunksF (a :: rest).length k (a :: rest) = _
    simp only [List.length_cons, chunksF, if_neg hk]
    congr 1
    apply chunksF_fuel_irrelevant
    · simp only [List.length_drop, List.length_cons]
      have : 0 < k := Nat.pos_of_ne_zero hk
      omega
    · exact le_refl _

/-- Concatenating the chunks recovers the list. -/
theorem join_chunks (k : ℕ) (hk : k ≠ 0) (l : List α) : (chunks k l).flatten = l := by
  by_cases hl : l = []
  · subst hl; simp [chunks_nil]
  · rw [chunks_cons_of_ne k l hk hl]
    have : (l.drop k).length < l.length := by
      have : 0 < l.length := List.length_pos.mpr hl
      simp [List.length_drop]; omega
    rw [List.flatten_cons, join_chunks k hk (l.drop k), List.take_append_drop]
termination_by l.length

/-- Chunking a list of total length `m * k` yields `m` full chunks. -/
theorem chunks_full (k : ℕ) (hk : k ≠ 0) :
    ∀ (m : ℕ) (l : List α), l.length = m * k →
      (chunks k l).length = m ∧ ∀ b ∈ chunks k l, b.length = k := by
  intro m
  induction m with
  | zero =>
    intro l hl
    have : l = [] := List.eq_nil_of_length_eq_zero (by simpa using hl)
    subst this; simp [chunks_nil]
  | succ n ih =>
    intro l hl
    have hk' : 0 < k := Nat.pos_of_ne_zero hk
    have hlen : l.length = (n + 1) * k := hl
    have hlpos : 0 < l.length := by
      rw [hlen]; exact Nat.mul_pos (Nat.succ_pos n) hk'
    have hl0 : l ≠ [] := by
      intro h; subst h; simp at hlpos
    rw [chunks_cons_of_ne k l hk hl0]
    have hklen : k ≤ l.length := by
      rw [hlen, Nat.succ_mul]; omega
    have hdrop : (l.drop k).length = n * k := by
      simp [List.length_drop, hlen, Nat.succ_mul]
    obtain ⟨h1, h2⟩ := ih (l.drop k) hdrop
    refine ⟨by simp [h1], ?_⟩
    intro b hb
    rcases List.mem_cons.mp hb with h | h
    · subst h; simp [List.length_take]; omega
    · exact h2 b h

/-- Chunking the concatenation of length-`k` blocks recovers the blocks. -/
theorem chunks_join (k : ℕ) (hk : k ≠ 0) :
    ∀ (bs : List (List α)), (∀ b ∈ bs, b.length = k) →
      chunks k bs.flatten = bs := by
  intro bs
  induction bs with
  | nil => intro _; simp [chunks_nil]
  | cons b rest ih =>
    intro hall
    have hb : b.length = k := hall b (List.mem_cons_self _ _)
    have hbne : (b ++ rest.flatten) ≠ [] := by
      have hbne' : b ≠ [] := by
        intro h; subst h; simp at hb; exact hk hb.symm
      simp [List.append_eq_nil, hbne']
    rw [List.flatten_cons, chunks_cons_of_ne k _ hk hbne]
    have htake : (b ++ rest.flatten).take k = b := by
      rw [← hb, List.take_left]
    have hdrop : (b ++ rest.flatten).drop k = rest.flatten := by
      rw [← hb, List.drop_left]
    rw [htake, hdrop, ih (fun x hx => hall x (List.mem_cons_of_mem _ hx))]

theorem length_dropWhile_le (p : α → Bool) (l : List α) :
    (l.dropWhile p).length ≤ l.length := by
  induction l with
  | nil => simp [List.dropWhile]
  | cons a l ih =>
    simp only [List.dropWhile]
    cases p a <;> simp <;> omega

theorem getD_eq_getElem_of_lt (l : List α) (d : α) (i : ℕ) (h : i < l.length) :
    l.getD i d = l[i] := by
  rw [List.getD_eq_getElem?_getD, List.getElem?_eq_getElem h, Option.getD_some]

theorem map_getD_range (l : List ℚ) :
    (List.range l.length).map (fun i => l.getD i 0) = l := by
  apply List.ext_getElem
  · simp
  · intro n h1 h2
    simp only [List.getElem_map, List.getElem_range]
    exact getD_eq_getElem_of_lt l 0 n h2

theorem npStackMeanData_singleton (d : List ℚ) : npStackMeanData [d] = d := by
  unfold npStackMeanData
  simpa using map_getD_range d

/-- Pointwise means of stacks that are permutations of one another (all
rows of one common length) agree. -/
theorem npStackMeanData_perm (ds ds' : List (List ℚ)) (L : ℕ)
    (hperm : ds.Perm ds') (hlen : ∀ d ∈ ds, d.length = L) :
    npStackMeanData ds = npStackMeanData ds' := by
  rcases hds : ds with _ | ⟨d, rest⟩
  · subst hds
    have : ds' = [] := hperm.symm.eq_nil
    subst this; rfl
  · subst hds
    rcases hds' : ds' with _ | ⟨d', rest'⟩
    · subst hds'
      exact absurd hperm.eq_nil (by simp)
    · subst hds'
      have hlen' : ∀ e ∈ d' :: rest', e.length = L := by
        intro e he; exact hlen e (hperm.symm.subset he)
      have hhead : d.length = d'.length := by
        rw [hlen d (List.mem_cons_self _ _), hlen' d' (List.mem_cons_self _ _)]
      unfold npStackMeanData
      simp only [List.headD_cons]
      rw [hhead]
      apply List.map_congr_left
      intro i _
      have hsum : ((d :: rest).map (fun e => e.getD i 0)).sum
          = ((d' :: rest').map (fun e => e.getD i 0)).sum :=
        (hperm.map _).sum_eq
      have hlength : (d :: rest).length = (d' :: rest').length := hperm.length_eq
      rw [hsum, hlength]

/-! ## C7: a singleton ensemble equals the single model -/

/-- C7: for every model `m` and every image batch, `run_seg_prediction`
applied to the singleton collection `[m]` returns the same result as
`run_seg_prediction` applied to `m` alone, for both the TTA and the
non-TTA path (no double-averaging). -/
theorem c7_singleton_ensemble_eq_single (M : Model) (x : NDArr) (tta : Bool) :
    run_seg_prediction x (.many [M]) tta = run_seg_prediction x (.one M) tta := by
  cases tta <;>
    simp [run_seg_prediction, npStackMeanData_singleton]

/-! ## C6: ensembling is invariant under model permutation -/

/-- C6: for every non-empty collection of models producing equal-shaped
predictions on the batch (as `np.stack` requires), permuting the order of
the models does not change the result of `run_seg_prediction`, with or
without TTA: ensembling is the arithmetic mean of the per-model
predictions. -/
theorem c6_model_order_irrelevant (x : NDArr) (ms ms' : List Model)
    (tta : Bool) (sh : List ℕ) (L : ℕ) (hperm : ms.Perm ms')
    (hsh : ∀ M ∈ ms,
      (if tta then TTA_Segmentation_All M x else M x).shape = sh)
    (hlen : ∀ M ∈ ms,
      (if tta then TTA_Segmentation_All M x else M x).data.length = L)
    (hne : ms ≠ []) :
    run_seg_prediction x (.many ms) tta
      = run_seg_prediction x (.many ms') tta := by
  have hne' : ms' ≠ [] := by
    intro h; subst h; exact hne hperm.eq_nil
  have hsh' : ∀ M ∈ ms',
      (if tta then TTA_Segmentation_All M x else M x).shape = sh := by
    intro M hM; exact hsh M (hperm.symm.subset hM)
  have hshape : ∀ (l : List Model), l ≠ [] →
      (∀ M ∈ l, (if tta then TTA_Segmentation_All M x else M x).shape = sh) →
      (((l.map (fun M => if tta then TTA_Segmentation_All M x else M x)).headD
        ⟨[], []⟩).shape) = sh := by
    intro l hl hall
    rcases l with _ | ⟨M, rest⟩
    · exact absurd rfl hl
    · simpa using hall M (List.mem_cons_self _ _)
  have hdata : npStackMeanData
        ((ms.map (fun M => if tta then TTA_Segmentation_All M x else M x)).map
          (fun p => p.data))
      = npStackMeanData
        ((ms'.map (fun M => if tta then TTA_Segmentation_All M x else M x)).map
          (fun p => p.data)) := by
    apply npStackMeanData_perm _ _ L
    · exact (hperm.map _).map _
    · intro d hd
      simp only [List.map_map, List.mem_map] at hd
      obtain ⟨M, hM, hMe⟩ := hd
      rw [← hMe]
      exact hlen M hM
  have h1 := hshape ms hne hsh
  have h2 := hshape ms' hne' hsh'
  cases tta with
  | true =>
    simp only [if_true] at h1 h2 hdata
    simp only [run_seg_prediction]
    rw [h1, h2, hdata]
  | false =>
    simp only [Bool.false_eq_true, if_false] at h1 h2 hdata
    simp only [run_seg_prediction]
    rw [h1, h2, hdata]

/-- C6 witness: swapping a concrete two-model ensemble does not change
the prediction. -/
theorem c6_model_order_irrelevant_witness :
    run_seg_prediction twoImgBatch (.many [onesModel, zerosModel]) false
      = run_seg_prediction twoImgBatch (.many [zerosModel, onesModel]) false :=
  c6_model_order_irrelevant twoImgBatch [onesModel, zerosModel]
    [zerosModel, onesModel] false [2, 2, 2, 1] 8
    (List.Perm.swap zerosModel onesModel [])
    (by
      intro M hM
      rcases List.mem_cons.mp hM with h1 | h2
      · subst h1; rfl
      · rw [List.mem_singleton.mp h2]; rfl)
    (by
      intro M hM
      rcases List.mem_cons.mp hM with h1 | h2
      · subst h1; rfl
      · rw [List.mem_singleton.mp h2]; rfl)
    (List.cons_ne_nil _ _)

/-! ## C5: output shape of the prediction runner -/

/-- C5 counterexample: on a non-empty batch with a single image, of shape
(1, 2, 2, 1), with a model producing predictions of shape (1, 2, 2, 1),
the final `.squeeze()` also removes the leading batch axis: the result
shape is (2, 2) rather than the claimed (1, 2, 2) — an axis other than
the trailing channel axis is removed. -/
theorem c5_counterexample :
    oneImgBatch.shape = [1, 2, 2, 1]
    ∧ (oneImgModel oneImgBatch).shape = [1, 2, 2, 1]
    ∧ (run_seg_prediction oneImgBatch (.one oneImgModel) false).shape = [2, 2]
    ∧ ([2, 2] : List ℕ) ≠ [1, 2, 2] := by
  refine ⟨rfl, rfl, by decide, by decide⟩

/-- C5 (amended): `run_seg_prediction` returns the per-model prediction
shape with every size-1 axis removed (`np.squeeze`); in particular, for
predictions of shape `(N, H, W, 1)` over an input batch of shape
`(N, H, W, C)`, whenever `N`, `H` and `W` each differ from 1 the result
shape is exactly `(N, H, W)` — same leading count, same spatial shape, no
channel axis. -/
theorem c5_amended_squeezed_shape (x : NDArr) (m : SegModelInput) (tta : Bool)
    (N H Wn C : ℕ) (hx : x.shape = [N, H, Wn, C])
    (hm : ∀ M ∈ modelsOf m, (M x).shape = [N, H, Wn, 1])
    (hne : modelsOf m ≠ [])
    (hN : N ≠ 1) (hH : H ≠ 1) (hW : Wn ≠ 1) :
    (run_seg_prediction x m tta).shape = [N, H, Wn] := by
  clear hx
  have hsq : npSqueezeShape [N, H, Wn, 1] = [N, H, Wn] := by
    simp [npSqueezeShape, List.filter_cons, hN, hH, hW]
  cases m with
  | one M =>
    have hM : (M x).shape = [N, H, Wn, 1] := hm M (by simp [modelsOf])
    cases tta with
    | true =>
      simp only [run_seg_prediction, TTA_Segmentation_All, npMeanPair]
      rw [hM, hsq]
    | false =>
      simp only [run_seg_prediction]
      rw [hM, hsq]
  | many ms =>
    rcases ms with _ | ⟨M0, rest⟩
    · exact absurd (rfl : ([] : List Model) = []) (by simpa [modelsOf] using hne)
    · have hM0 : (M0 x).shape = [N, H, Wn, 1] := hm M0 (by simp [modelsOf])
      cases tta with
      | true =>
        simp only [run_seg_prediction, TTA_Segmentation_All, npMeanPair,
          List.map_cons, List.headD_cons]
        rw [hM0, hsq]
      | false =>
        simp only [run_seg_prediction, List.map_cons, List.headD_cons]
        rw [hM0, hsq]

/-- C5 amended witness at a concrete two-image batch. -/
theorem c5_amended_squeezed_shape_witness :
    (run_seg_prediction twoImgBatch (.one zerosModel) false).shape = [2, 2, 2] :=
  c5_amended_squeezed_shape twoImgBatch (.one zerosModel) false 2 2 2 1
    rfl
    (by intro M hM; simp only [modelsOf, List.mem_singleton] at hM; subst hM; rfl)
    (by simp [modelsOf])
    (by decide) (by decide) (by decide)

/-! ## C3: the TTA transform -/

theorem flatten_reverse_chunks_length (c : ℕ) (hc : c ≠ 0) (b : List α) :
    (((chunks c b).reverse).flatten).length = b.length := by
  rw [List.length_flatten, List.map_reverse, List.sum_reverse,
    ← List.length_flatten, join_chunks c hc]

/-- Reversing the size-`c` cells of a block twice is the identity on
blocks whose length is a multiple of `c`. -/
theorem flip_block_invol (c : ℕ) (hc : c ≠ 0) (b : List α) (Wn : ℕ)
    (hb : b.length = Wn * c) :
    ((chunks c (((chunks c b).reverse).flatten)).reverse).flatten = b := by
  obtain ⟨_, hfull⟩ := chunks_full c hc Wn b hb
  have hrev : ∀ x ∈ (chunks c b).reverse, x.length = c := by
    intro x hx; exact hfull x (List.mem_reverse.mp hx)
  rw [chunks_join c hc _ hrev, List.reverse_reverse, join_chunks c hc]

/-- The flip `flipAxis2` is an involution on well-formed arrays with at least three
axes of nonzero size. -/
theorem flipAxis2_invol (a : NDArr) (N H Wn : ℕ) (rest : List ℕ)
    (hs : a.shape = N :: H :: Wn :: rest)
    (hd : a.data.length = a.shape.prod)
    (hW : Wn ≠ 0) (hrest : rest.prod ≠ 0) :
    flipAxis2 (flipAxis2 a) = a := by
  obtain ⟨sh, d⟩ := a
  simp only at hs hd
  subst hs
  have hget : (N :: H :: Wn :: rest).getD 2 0 = Wn := rfl
  have hdrop : (N :: H :: Wn :: rest).drop 3 = rest := rfl
  have hk : Wn * rest.prod ≠ 0 := Nat.mul_ne_zero hW hrest
  have hlen : d.length = (N * H) * (Wn * rest.prod) := by
    rw [hd]; simp [List.prod_cons]; ring
  obtain ⟨hcount, hfull⟩ := chunks_full (Wn * rest.prod) hk (N * H) d hlen
  simp only [flipAxis2, hget, hdrop]
  congr 1
  -- data component
  set g : List ℚ → List ℚ :=
    fun blk => ((chunks rest.prod blk).reverse).flatten with hg
  have hglen : ∀ blk : List ℚ, (g blk).length = blk.length := by
    intro blk
    exact flatten_reverse_chunks_length rest.prod hrest blk
  have hchunks2 : chunks (Wn * rest.prod)
      (((chunks (Wn * rest.prod) d).map g).flatten)
      = (chunks (Wn * rest.prod) d).map g := by
    apply chunks_join _ hk
    intro b hb
    obtain ⟨b0, hb0, hbe⟩ := List.mem_map.mp hb
    rw [← hbe, hglen b0]
    exact hfull b0 hb0
  rw [hchunks2, List.map_map]
  have hgg : ∀ b0 ∈ chunks (Wn * rest.prod) d, (g ∘ g) b0 = b0 := by
    intro b0 hb0
    simp only [Function.comp_apply, hg]
    exact flip_block_invol rest.prod hrest b0 Wn (hfull b0 hb0)
  calc ((chunks (Wn * rest.prod) d).map (g ∘ g)).flatten
      = ((chunks (Wn * rest.prod) d).map id).flatten := by
        congr 1
        exact List.map_congr_left hgg
    _ = d := by rw [List.map_id, join_chunks _ hk]

/-- C3: with TTA enabled the runner's result is the elementwise
arithmetic mean of the prediction on the batch as-is and the re-flipped
prediction on the left-right-mirrored batch; consequently, for a model
that commutes with the horizontal flip (and produces a well-formed
prediction array), the TTA result equals the plain prediction. -/
theorem c3_tta_mean_and_flip_commuting (M : Model) (x : NDArr)
    (N H Wn : ℕ) (rest : List ℕ)
    (hcomm : ∀ a, M (flipAxis2 a) = flipAxis2 (M a))
    (hs : (M x).shape = N :: H :: Wn :: rest)
    (hd : (M x).data.length = (M x).shape.prod)
    (hW : Wn ≠ 0) (hrest : rest.prod ≠ 0) :
    TTA_Segmentation_All M x
      = npMeanPair (M x) (flipAxis2 (M (flipAxis2 x)))
    ∧ TTA_Segmentation_All M x = M x := by
  refine ⟨rfl, ?_⟩
  show npMeanPair (M x) (flipAxis2 (M (flipAxis2 x))) = M x
  rw [hcomm x, flipAxis2_invol (M x) N H Wn rest hs hd hW hrest]
  unfold npMeanPair
  rw [List.zipWith_same]
  have hhalf : (fun a : ℚ => (a + a) / 2) = fun a : ℚ => a := by
    funext a; ring
  rw [hhalf]
  simp

/-- C3 witness: the identity model commutes with the flip, and its TTA
result on a concrete single-image batch is the plain prediction. -/
theorem c3_tta_mean_and_flip_commuting_witness :
    TTA_Segmentation_All idModel oneImgBatch
      = npMeanPair (idModel oneImgBatch)
          (flipAxis2 (idModel (flipAxis2 oneImgBatch)))
    ∧ TTA_Segmentation_All idModel oneImgBatch = idModel oneImgBatch :=
  c3_tta_mean_and_flip_commuting idModel oneImgBatch 1 2 2 [1]
    (fun _ => rfl) rfl (by decide) (by decide) (by decide)

/-! ## C9: strict binarization threshold -/

theorem getD_replicate_of_lt (n : ℕ) (a d : α) (i : ℕ) (hi : i < n) :
    (List.replicate n a).getD i d = a := by
  rw [getD_eq_getElem_of_lt _ d i (by simpa using hi), List.getElem_replicate]

theorem chunks_replicate (k : ℕ) (hk : k ≠ 0) :
    ∀ (m : ℕ) (r : α), chunks k (List.replicate (m * k) r)
      = List.replicate m (List.replicate k r) := by
  intro m
  induction m with
  | zero => intro r; simp [chunks_nil]
  | succ n ih =>
    intro r
    have hkpos : 0 < k := Nat.pos_of_ne_zero hk
    have hne : List.replicate ((n + 1) * k) r ≠ [] := by
      have : 0 < (n + 1) * k := Nat.mul_pos (Nat.succ_pos n) hkpos
      intro h
      have := congrArg List.length h
      simp at this
      omega
    rw [chunks_cons_of_ne k _ hk hne]
    have hsplit : List.replicate ((n + 1) * k) r
        = List.replicate k r ++ List.replicate (n * k) r := by
      rw [← List.replicate_add]
      congr 1
      ring
    have h1 : (List.replicate ((n + 1) * k) r).take k = List.replicate k r := by
      rw [hsplit]
      simpa using List.take_left (List.replicate k r) (List.replicate (n * k) r)
    have h2 : (List.replicate ((n + 1) * k) r).drop k
        = List.replicate (n * k) r := by
      rw [hsplit]
      simpa using List.drop_left (List.replicate k r) (List.replicate (n * k) r)
    rw [h1, h2, ih r, List.replicate_succ]

theorem npStackMeanData_pair_replicate (n : ℕ) (a b : ℚ) :
    npStackMeanData [List.replicate n a, List.replicate n b]
      = List.replicate n ((a + b) / 2) := by
  unfold npStackMeanData
  apply List.ext_getElem
  · simp
  · intro i h1 h2
    have hi : i < n := by simpa using h1
    simp only [List.headD_cons, List.length_replicate, List.getElem_map,
      List.getElem_range, List.getElem_replicate, List.map_cons, List.map_nil,
      List.sum_cons, List.sum_nil, List.length_cons, List.length_nil]
    rw [getD_replicate_of_lt n a 0 i hi, getD_replicate_of_lt n b 0 i hi]
    norm_num

/-- C9: a pixel becomes foreground exactly when its probability strictly
exceeds the threshold (values equal to the threshold are background);
ensembling an all-ones model with an all-zeros model yields the uniform
1/2 probability map, which binarizes to all-background at threshold
1/2. -/
theorem c9_strict_threshold_and_half_scenario :
    (∀ (g : List (List ℚ)) (t : ℚ) (i j : ℕ),
      i < g.length → j < (g.getD i []).length →
        (((binarize g t).getD i []).getD j false = true
          ↔ t < (g.getD i []).getD j 0))
    ∧ (run_seg_prediction twoImgBatch (.many [onesModel, zerosModel])
        false).data = List.replicate 8 (1/2 : ℚ)
    ∧ (toMasks (run_seg_prediction twoImgBatch (.many [onesModel, zerosModel])
          false)).map (fun mk => binarize mk (1/2))
        = [[[false, false], [false, false]],
           [[false, false], [false, false]]] := by
  have hdata : (run_seg_prediction twoImgBatch (.many [onesModel, zerosModel])
      false).data = List.replicate 8 (1/2 : ℚ) := by
    show npStackMeanData [List.replicate 8 (1 : ℚ), List.replicate 8 (0 : ℚ)]
        = List.replicate 8 (1/2 : ℚ)
    rw [npStackMeanData_pair_replicate]
    norm_num
  have hshape : (run_seg_prediction twoImgBatch (.many [onesModel, zerosModel])
      false).shape = [2, 2, 2] := rfl
  have harr : run_seg_prediction twoImgBatch (.many [onesModel, zerosModel])
      false = ⟨[2, 2, 2], List.replicate 8 (1/2 : ℚ)⟩ := by
    calc run_seg_prediction twoImgBatch (.many [onesModel, zerosModel]) false
        = ⟨(run_seg_prediction twoImgBatch (.many [onesModel, zerosModel])
              false).shape,
           (run_seg_prediction twoImgBatch (.many [onesModel, zerosModel])
              false).data⟩ := rfl
      _ = ⟨[2, 2, 2], List.replicate 8 (1/2 : ℚ)⟩ := by rw [hshape, hdata]
  refine ⟨?_, hdata, ?_⟩
  case refine_2 =>
    rw [harr]
    show ((chunks 4 (List.replicate 8 (1/2 : ℚ))).map
        (fun blk => chunks 2 blk)).map (fun mk => binarize mk (1/2))
      = [[[false, false], [false, false]], [[false, false], [false, false]]]
    rw [show List.replicate 8 ((1 : ℚ)/2) = List.replicate (2 * 4) ((1 : ℚ)/2)
        from rfl,
      chunks_replicate 4 (by decide) 2, List.map_replicate, List.map_replicate]
    rw [show List.replicate 4 ((1 : ℚ)/2) = List.replicate (2 * 2) ((1 : ℚ)/2)
        from rfl,
      chunks_replicate 2 (by decide) 2]
    have hb : binarize (List.replicate 2 (List.replicate 2 ((1 : ℚ)/2))) (1/2)
        = List.replicate 2 (List.replicate 2 false) := by
      unfold binarize
      rw [List.map_replicate, List.map_replicate]
      have hnot : ¬((1 : ℚ)/2 > 1/2) := by norm_num
      simp [hnot]
    rw [hb]
    decide
  intro g t i j hi hj
  have hgi : g.getD i [] = g[i] := getD_eq_getElem_of_lt g [] i hi
  rw [hgi] at hj ⊢
  have h1 : (binarize g t).getD i [] = (g[i]).map (fun v => decide (v > t)) := by
    unfold binarize
    rw [getD_eq_getElem_of_lt _ [] i (by simpa using hi), List.getElem_map]
  rw [h1]
  have h2 : ((g[i]).map (fun v => decide (v > t))).getD j false
      = decide (g[i][j] > t) := by
    rw [getD_eq_getElem_of_lt _ false j (by simpa using hj), List.getElem_map]
  rw [h2, getD_eq_getElem_of_lt _ 0 j hj]
  simp only [decide_eq_true_eq, gt_iff_lt]

/-- C9 witness for the strict-inequality characterization at a concrete
probability grid and threshold. -/
theorem c9_strict_threshold_and_half_scenario_witness :
    ((binarize [[(3/4 : ℚ)]] (1/2)).getD 0 []).getD 0 false = true
      ↔ (1/2 : ℚ) < ([[(3/4 : ℚ)]].getD 0 []).getD 0 0 :=
  c9_strict_threshold_and_half_scenario.1 [[(3/4 : ℚ)]] (1/2) 0 0
    (by decide) (by decide)

/-! ## C2: the selection phase and SelectionMismatch -/

theorem sortStr_perm (l : List String) : (sortStr l).Perm l :=
  List.perm_insertionSort _ l

theorem sortStr_sorted (l : List String) : List.Sorted (· ≤ ·) (sortStr l) :=
  List.sorted_insertionSort _ l

theorem sortStr_eq_self_of_sorted (l : List String)
    (h : List.Sorted (· ≤ ·) l) : sortStr l = l :=
  List.eq_of_perm_of_sorted (sortStr_perm l) (sortStr_sorted l) h

theorem stage2SegIds_sorted (df : List Record) :
    List.Sorted (· ≤ ·) (stage2SegIds df) := by
  unfold stage2SegIds
  exact sortStr_sorted _

/-- C2: the selection phase selects exactly the identifiers whose
encoded-mask field equals the "positive, mask pending" sentinel and sorts
them lexicographically; and whenever the sorted sequence of resolved
filename stems is not exactly the sorted sequence of selected
identifiers, the run aborts with SelectionMismatch and no batch is ever
handed to `model.predict`. -/
theorem c2_selection_and_mismatch_abort (stem : String → String)
    (load : String → ℕ → ℕ → Img) (seg_model : SegModelInput)
    (df : List Record) (fpaths : List String) (channels img_size : ℕ)
    (tta : Bool) (threshold : ℚ) (min_roi_size : ℕ)
    (hmm : sortStr ((stage2Fpaths stem df fpaths).map stem)
      ≠ stage2SegIds df) :
    (List.Sorted (· ≤ ·) (stage2SegIds df)
      ∧ ∀ a, a ∈ stage2SegIds df
          ↔ ∃ r ∈ df, r.EncodedPixels = "1" ∧ r.ImageId = a)
    ∧ Stage2 stem load seg_model df fpaths channels img_size tta threshold
        min_roi_size = (.error "SelectionMismatch", []) := by
  refine ⟨⟨stage2SegIds_sorted df, ?_⟩, ?_⟩
  · intro a
    unfold stage2SegIds
    rw [(sortStr_perm _).mem_iff]
    simp only [List.mem_map, List.mem_filter, decide_eq_true_eq]
    constructor
    · rintro ⟨r, ⟨h1, h2⟩, h3⟩
      exact ⟨r, h1, h2, h3⟩
    · rintro ⟨r, h1, h2, h3⟩
      exact ⟨r, ⟨h1, h2⟩, h3⟩
  · have hcond : ¬((stage2Fpaths stem df fpaths).map stem
        = stage2SegIds df) := by
      intro h
      apply hmm
      rw [h]
      exact sortStr_eq_self_of_sorted _ (stage2SegIds_sorted df)
    simp only [Stage2]
    rw [if_neg hcond]

/-- C2 witness: one pending identifier but no candidate files — the
resolved stems cannot match, the run aborts with SelectionMismatch and
the inference log stays empty. -/
theorem c2_selection_and_mismatch_abort_witness :
    (List.Sorted (· ≤ ·) (stage2SegIds [⟨"a", "1"⟩])
      ∧ ∀ a, a ∈ stage2SegIds [⟨"a", "1"⟩]
          ↔ ∃ r ∈ ([⟨"a", "1"⟩] : List Record),
              r.EncodedPixels = "1" ∧ r.ImageId = a)
    ∧ Stage2 idStem noLoad (.one emptyModel) [⟨"a", "1"⟩] [] 1 2 false
        (1/2) 0 = (.error "SelectionMismatch", []) :=
  c2_selection_and_mismatch_abort idStem noLoad (.one emptyModel)
    [⟨"a", "1"⟩] [] 1 2 false (1/2) 0 (by decide)

/-! ## C4: the empty-positives run -/

/-- C4 counterexample: with zero pending identifiers the claim fails on
two counts.  On a table with only the negative sentinel the run succeeds
and leaves the table unchanged, but the predict-call log is nonempty:
`run_seg_prediction` is invoked and `model.predict` receives the empty
batch.  And on a table containing a blank encoded-mask field the output
table is not identical to the input: the defensive rewrite forces the
blank to `"-1"`. -/
theorem c4_counterexample :
    stage2SegIds [⟨"a", "-1"⟩] = []
    ∧ (Stage2 idStem noLoad (.one emptyModel) [⟨"a", "-1"⟩] [] 1 2 false
        (1/2) 0).2 ≠ []
    ∧ stage2SegIds [⟨"a", ""⟩] = []
    ∧ (Stage2 idStem noLoad (.one emptyModel) [⟨"a", ""⟩] [] 1 2 false
        (1/2) 0).1 = .ok [⟨"a", "-1"⟩]
    ∧ ([⟨"a", "-1"⟩] : List Record) ≠ [⟨"a", ""⟩] :=
  ⟨rfl, by decide, rfl, rfl, by decide⟩

/-- C4 (amended): when zero identifiers carry the pending sentinel and no
encoded-mask field of the input table is blank, a Stage-2 run succeeds
with the output table identical to the input table and no error is
raised; however inference is not skipped: the predict-call log equals the
per-model call list on the empty batch, which is nonempty for a single
model. -/
theorem c4_amended_noop_but_inference_invoked (stem : String → String)
    (load : String → ℕ → ℕ → Img) (m : SegModelInput) (M : Model)
    (df : List Record) (fpaths : List String) (channels img_size : ℕ)
    (tta : Bool) (threshold : ℚ) (min_roi_size : ℕ)
    (hnopos : ∀ r ∈ df, r.EncodedPixels ≠ "1")
    (hnoblank : ∀ r ∈ df, r.EncodedPixels ≠ "") :
    (Stage2 stem load m df fpaths channels img_size tta threshold
        min_roi_size).1 = .ok df
    ∧ (Stage2 stem load (.one M) df fpaths channels img_size tta threshold
        min_roi_size).2
      = predictCallsRun (.one M) (stage2X stem load df fpaths img_size channels)
          tta
    ∧ (Stage2 stem load (.one M) df fpaths channels img_size tta threshold
        min_roi_size).2 ≠ [] := by
  have hseg : stage2SegIds df = [] := by
    unfold stage2SegIds
    have hf : df.filter (fun r => decide (r.EncodedPixels = "1")) = [] := by
      rw [List.filter_eq_nil_iff]
      intro r hr
      simpa using hnopos r hr
    rw [hf]
    rfl
  have hfp : stage2Fpaths stem df fpaths = [] := by
    unfold stage2Fpaths
    rw [hseg]
    simp [sortStr]
  have hcond : (stage2Fpaths stem df fpaths).map stem = stage2SegIds df := by
    rw [hfp, hseg]
    rfl
  have hedit : ∀ masks, edit_classification_df df masks [] = df := by
    intro masks
    unfold edit_classification_df
    simp only [List.zip_nil_left, List.foldl_nil]
    calc df.map (fun r => if r.EncodedPixels = "" then ⟨r.ImageId, "-1"⟩ else r)
        = df.map id :=
          List.map_congr_left (fun r hr => by rw [if_neg (hnoblank r hr)]; rfl)
      _ = df := List.map_id df
  refine ⟨?_, ?_, ?_⟩
  · simp only [Stage2]
    rw [if_pos hcond, hseg]
    rw [hedit]
  · simp only [Stage2]
    rw [if_pos hcond]
  · simp only [Stage2]
    rw [if_pos hcond]
    cases tta <;> simp [predictCallsRun, predictCallsTTA]

/-- C4 amended witness on a concrete negative-only table. -/
theorem c4_amended_noop_but_inference_invoked_witness :
    (Stage2 idStem noLoad (.one emptyModel) [⟨"a", "-1"⟩] [] 1 2 false
        (1/2) 0).1 = .ok [⟨"a", "-1"⟩]
    ∧ (Stage2 idStem noLoad (.one emptyModel) [⟨"a", "-1"⟩] [] 1 2 false
        (1/2) 0).2
      = predictCallsRun (.one emptyModel)
          (stage2X idStem noLoad [⟨"a", "-1"⟩] [] 2 1) false
    ∧ (Stage2 idStem noLoad (.one emptyModel) [⟨"a", "-1"⟩] [] 1 2 false
        (1/2) 0).2 ≠ [] :=
  c4_amended_noop_but_inference_invoked idStem noLoad (.one emptyModel)
    emptyModel [⟨"a", "-1"⟩] [] 1 2 false (1/2) 0 (by decide) (by decide)

/-! ## C10: the declared run-length dimensions are the fixed 1024 × 1024 -/

/-- C10: on every successful Stage-2 run — for an arbitrary `img_size`
parameter (default 256), which determines the size of the loaded images
and of the predicted masks — the merged table is the input table with
each selected identifier's record overwritten by the run-length encoding
of its predicted mask at the fixed declared dimensions height = 1024 and
width = 1024 (and any blank field forced to `"-1"`); the declared
encoding dimensions do not depend on `img_size`. -/
theorem c10_rle_dims_fixed_1024 (stem : String → String)
    (load : String → ℕ → ℕ → Img) (m : SegModelInput) (df : List Record)
    (fpaths : List String) (channels img_size : ℕ) (tta : Bool)
    (threshold : ℚ) (min_roi_size : ℕ) (df' : List Record)
    (hok : (Stage2 stem load m df fpaths channels img_size tta threshold
        min_roi_size).1 = .ok df') :
    df' = (((stage2SegIds df).zip
        ((stage2Masks stem load m df fpaths img_size channels tta threshold
            min_roi_size).map (fun mask => mask2rle mask 1024 1024))).foldl
        (fun d w => d.map
          (fun r => if r.ImageId = w.1 then ⟨r.ImageId, w.2⟩ else r))
        df).map
        (fun r => if r.EncodedPixels = "" then ⟨r.ImageId, "-1"⟩ else r) := by
  by_cases hcond : (stage2Fpaths stem df fpaths).map stem = stage2SegIds df
  · simp only [Stage2] at hok
    rw [if_pos hcond] at hok
    have hed : edit_classification_df df
        (stage2Masks stem load m df fpaths img_size channels tta threshold
          min_roi_size) (stage2SegIds df) = df' := by
      exact Except.ok.inj hok
    rw [← hed]
    rfl
  · simp only [Stage2] at hok
    rw [if_neg hcond] at hok
    exact absurd hok (by simp)

/-- C10 witness on a concrete empty-positives run (with `img_size` = 2,
not 1024). -/
theorem c10_rle_dims_fixed_1024_witness :
    ([⟨"a", "-1"⟩] : List Record)
      = (((stage2SegIds [⟨"a", "-1"⟩]).zip
          ((stage2Masks idStem noLoad (.one emptyModel) [⟨"a", "-1"⟩] [] 2 1
              false (1/2) 0).map (fun mask => mask2rle mask 1024 1024))).foldl
          (fun d w => d.map
            (fun r => if r.ImageId = w.1 then ⟨r.ImageId, w.2⟩ else r))
          [⟨"a", "-1"⟩]).map
          (fun r => if r.EncodedPixels = "" then ⟨r.ImageId, "-1"⟩ else r) :=
  c10_rle_dims_fixed_1024 idStem noLoad (.one emptyModel) [⟨"a", "-1"⟩] []
    1 2 false (1/2) 0 [⟨"a", "-1"⟩] rfl

/-! ## Codec lemmas: decimal tokens -/

theorem digitChar_props :
    ∀ d, d < 10 → isDigitCh (Nat.digitChar d) = true
      ∧ charVal (Nat.digitChar d) = d := by
  decide

theorem renderNat_ne_nil (n : ℕ) : renderNat n ≠ [] := by
  unfold renderNat
  by_cases h : n = 0
  · simp [h]
  · rw [if_neg h]
    simp only [ne_eq, List.reverse_eq_nil_iff, List.map_eq_nil_iff]
    exact Nat.digits_ne_nil_iff_ne_zero.mpr h

theorem mem_renderNat_digit (n : ℕ) : ∀ c ∈ renderNat n, isDigitCh c = true := by
  intro c hc
  unfold renderNat at hc
  by_cases h : n = 0
  · rw [if_pos h] at hc
    simp only [List.mem_singleton] at hc
    subst hc
    decide
  · rw [if_neg h] at hc
    simp only [List.mem_reverse, List.mem_map] at hc
    obtain ⟨d, hd, hdc⟩ := hc
    have hd10 : d < 10 := Nat.digits_lt_base (by norm_num) hd
    rw [← hdc]
    exact (digitChar_props d hd10).1

theorem mem_renderNat_ne_space (n : ℕ) : ∀ c ∈ renderNat n, c ≠ ' ' := by
  intro c hc hsp
  have hd := mem_renderNat_digit n c hc
  rw [hsp] at hd
  exact absurd hd (by decide)

theorem parseNatChars_renderNat (n : ℕ) :
    parseNatChars (renderNat n) = some n := by
  unfold parseNatChars
  have hne : renderNat n ≠ [] := renderNat_ne_nil n
  have hall : (renderNat n).all isDigitCh = true := by
    rw [List.all_eq_true]
    exact mem_renderNat_digit n
  have hemp : (renderNat n).isEmpty = false := by
    rcases hrn : renderNat n with _ | ⟨c, t⟩
    · exact absurd hrn hne
    · rfl
  have hcond : (!(renderNat n).isEmpty && (renderNat n).all isDigitCh) = true := by
    rw [hall, Bool.and_true, hemp]
    rfl
  rw [if_pos hcond]
  congr 1
  by_cases h : n = 0
  · subst h
    show Nat.ofDigits 10 (((['0'] : List Char).map charVal).reverse) = 0
    simp [charVal, Nat.ofDigits]
  · unfold renderNat
    rw [if_neg h, List.map_reverse, List.reverse_reverse, List.map_map]
    have hmap : (Nat.digits 10 n).map (charVal ∘ Nat.digitChar)
        = (Nat.digits 10 n).map id := by
      apply List.map_congr_left
      intro d hd
      have hd10 : d < 10 := Nat.digits_lt_base (by norm_num) hd
      exact (digitChar_props d hd10).2
    rw [hmap, List.map_id]
    exact Nat.ofDigits_digits 10 n

/-! ## Codec lemmas: splitting the space-separated body -/

theorem splitSpAux_no_space (t : List Char) (ht : ∀ c ∈ t, c ≠ ' ') :
    ∀ acc, splitSpAux t acc = [acc.reverse ++ t] := by
  induction t with
  | nil => intro acc; simp [splitSpAux]
  | cons c rest ih =>
    intro acc
    have hc : c ≠ ' ' := ht c (List.mem_cons_self _ _)
    simp only [splitSpAux, if_neg hc]
    rw [ih (fun d hd => ht d (List.mem_cons_of_mem _ hd)) (c :: acc)]
    simp

theorem splitSpAux_token (t : List Char) (ht : ∀ c ∈ t, c ≠ ' ') :
    ∀ acc rest, splitSpAux (t ++ ' ' :: rest) acc
      = (acc.reverse ++ t) :: splitSpAux rest [] := by
  induction t with
  | nil =>
    intro acc rest
    simp [splitSpAux]
  | cons c t' ih =>
    intro acc rest
    have hc : c ≠ ' ' := ht c (List.mem_cons_self _ _)
    simp only [List.cons_append, splitSpAux, if_neg hc]
    show splitSpAux (t' ++ ' ' :: rest) (c :: acc) = _
    rw [ih (fun d hd => ht d (List.mem_cons_of_mem _ hd)) (c :: acc) rest]
    simp

theorem renderRuns_single (r : ℕ × ℕ) :
    renderRuns [r] = renderNat r.1 ++ ' ' :: renderNat r.2 := by
  simp [renderRuns]

theorem renderRuns_cons_cons (r r2 : ℕ × ℕ) (rest : List (ℕ × ℕ)) :
    renderRuns (r :: r2 :: rest)
      = renderNat r.1 ++ ' ' :: (renderNat r.2 ++ ' ' :: renderRuns (r2 :: rest)) := by
  simp [renderRuns]

theorem splitSp_renderRuns : ∀ (rs : List (ℕ × ℕ)), rs ≠ [] →
    splitSp (renderRuns rs) = (tokensOf rs).map renderNat := by
  intro rs
  induction rs with
  | nil => intro h; exact absurd rfl h
  | cons r rest ih =>
    intro _
    cases rest with
    | nil =>
      unfold splitSp
      rw [renderRuns_single r,
        splitSpAux_token _ (mem_renderNat_ne_space r.1) [] _,
        splitSpAux_no_space _ (mem_renderNat_ne_space r.2) []]
      simp [tokensOf]
    | cons r2 rest2 =>
      unfold splitSp
      rw [renderRuns_cons_cons r r2 rest2,
        splitSpAux_token _ (mem_renderNat_ne_space r.1) [] _,
        splitSpAux_token _ (mem_renderNat_ne_space r.2) [] _]
      have hih := ih (by simp)
      unfold splitSp at hih
      rw [hih]
      simp [tokensOf]

/-! ## Codec lemmas: parsing the rendered body -/

theorem mapM_parseNat_renderNat : ∀ (ns : List ℕ),
    ((ns.map renderNat).mapM parseNatChars) = some ns := by
  intro ns
  induction ns with
  | nil => rfl
  | cons n rest ih =>
    simp only [List.map_cons, List.mapM_cons, parseNatChars_renderNat, ih,
      Option.pure_def, Option.bind_some, Option.bind_eq_bind]
    rfl

theorem pairUp_tokensOf : ∀ (rs : List (ℕ × ℕ)),
    pairUp (tokensOf rs) = some rs := by
  intro rs
  induction rs with
  | nil => rfl
  | cons r rest ih =>
    show pairUp (r.1 :: r.2 :: tokensOf rest) = some (r :: rest)
    simp only [pairUp, ih, Option.map_some]
    rfl

theorem parseRuns_renderRuns (rs : List (ℕ × ℕ)) (h : rs ≠ []) :
    parseRuns (renderRuns rs) = some rs := by
  unfold parseRuns
  rw [splitSp_renderRuns rs h, mapM_parseNat_renderNat]
  exact pairUp_tokensOf rs

/-! ## Codec lemmas: runs -/

theorem runsD_nil (i : ℕ) : runsD [] i = [] := by
  rw [runsD.eq_def]

theorem runsD_false_cons (rest : List Bool) (i : ℕ) :
    runsD (false :: rest) i = runsD rest (i + 1) := by
  rw [runsD.eq_def]

theorem runsD_true_cons (rest : List Bool) (i : ℕ) :
    runsD (true :: rest) i = (i, 1 + (rest.takeWhile id).length) ::
      runsD (rest.dropWhile id) (i + 1 + (rest.takeWhile id).length) := by
  rw [runsD.eq_def]

theorem runsD_shift_aux : ∀ (n : ℕ) (l : List Bool), l.length ≤ n → ∀ i,
    runsD l i = (runsD l 0).map (fun r => (r.1 + i, r.2)) := by
  intro n
  induction n with
  | zero =>
    intro l h i
    have hl : l = [] := List.eq_nil_of_length_eq_zero (Nat.le_zero.mp h)
    subst hl
    simp [runsD_nil]
  | succ k ih =>
    intro l h i
    rcases l with _ | ⟨b, rest⟩
    · simp [runsD_nil]
    · cases b
      · rw [runsD_false_cons, runsD_false_cons]
        have hr : rest.length ≤ k := by
          have h' : rest.length + 1 ≤ k + 1 := by simpa using h
          omega
        rw [ih rest hr (i + 1), ih rest hr (0 + 1), List.map_map]
        apply List.map_congr_left
        intro r _
        simp only [Function.comp_apply, Prod.mk.injEq, Prod.ext_iff]
        simp
        omega
      · rw [runsD_true_cons, runsD_true_cons]
        have hdw : (rest.dropWhile id).length ≤ k := by
          have h1 := length_dropWhile_le id rest
          have h' : rest.length + 1 ≤ k + 1 := by simpa using h
          omega
        rw [ih _ hdw (i + 1 + (rest.takeWhile id).length),
          ih _ hdw (0 + 1 + (rest.takeWhile id).length)]
        simp only [List.map_cons, List.map_map]
        congr 1
        · simp
        · apply List.map_congr_left
          intro r _
          simp only [Function.comp_apply, Prod.mk.injEq, Prod.ext_iff]
          simp
          omega

theorem runsD_shift (l : List Bool) (i : ℕ) :
    runsD l i = (runsD l 0).map (fun r => (r.1 + i, r.2)) :=
  runsD_shift_aux l.length l (le_refl _) i

theorem coveredB_eq_true_iff (rs : List (ℕ × ℕ)) (p : ℕ) :
    coveredB rs p = true ↔ ∃ r ∈ rs, r.1 ≤ p ∧ p < r.1 + r.2 := by
  unfold coveredB
  simp [List.any_eq_true]

theorem takeWhile_id_getD (l : List Bool) (j : ℕ)
    (hj : j < (l.takeWhile id).length) :
    (l.takeWhile id).getD j false = true := by
  rw [getD_eq_getElem_of_lt _ false j hj]
  have hmem : (l.takeWhile id)[j] ∈ l.takeWhile id := List.getElem_mem hj
  have := List.mem_takeWhile_imp hmem
  simpa using this

theorem dropWhile_id_getD_zero : ∀ (l : List Bool),
    (l.dropWhile id).getD 0 false = false
  | [] => rfl
  | b :: t => by
    cases hb : b
    · simp [List.dropWhile_cons, hb]
    · simp only [List.dropWhile_cons, hb, id, if_true]
      exact dropWhile_id_getD_zero t

/-- The positions covered by the runs of a scan sequence are exactly its
foreground positions. -/
theorem covered_runsD_aux : ∀ (n : ℕ) (l : List Bool), l.length ≤ n → ∀ p,
    (coveredB (runsD l 0) p = true ↔ l.getD p false = true) := by
  intro n
  induction n with
  | zero =>
    intro l h p
    have hl : l = [] := List.eq_nil_of_length_eq_zero (Nat.le_zero.mp h)
    subst hl
    simp [runsD_nil, coveredB]
  | succ k ih =>
    intro l h p
    rcases l with _ | ⟨b, rest⟩
    · simp [runsD_nil, coveredB]
    · have hlen : rest.length + 1 ≤ k + 1 := by simpa using h
      cases b
      · -- leading background cell
        rw [runsD_false_cons, runsD_shift rest (0 + 1), coveredB_eq_true_iff]
        constructor
        · rintro ⟨r', hr', h1, h2⟩
          obtain ⟨r, hr, rfl⟩ := List.mem_map.mp hr'
          have hp : 1 ≤ p := by omega
          have hcov : coveredB (runsD rest 0) (p - 1) = true := by
            rw [coveredB_eq_true_iff]
            exact ⟨r, hr, by omega, by omega⟩
          have hval := (ih rest (by omega) (p - 1)).mp hcov
          cases p with
          | zero => omega
          | succ q => simpa using hval
        · intro hg
          cases p with
          | zero => simp at hg
          | succ q =>
            have hq : rest.getD q false = true := by simpa using hg
            have hcov := (ih rest (by omega) q).mpr hq
            rw [coveredB_eq_true_iff] at hcov
            obtain ⟨r, hr, h1, h2⟩ := hcov
            refine ⟨(r.1 + (0 + 1), r.2), List.mem_map.mpr ⟨r, hr, rfl⟩,
              by omega, by omega⟩
      · -- leading foreground cell: first run covers the true-prefix
        rw [runsD_true_cons,
          runsD_shift (rest.dropWhile id) (0 + 1 + (rest.takeWhile id).length),
          coveredB_eq_true_iff]
        have hdwlen : (rest.dropWhile id).length ≤ k := by
          have := length_dropWhile_le id rest
          omega
        have htwdw := List.takeWhile_append_dropWhile (p := id) (l := rest)
        constructor
        · rintro ⟨r, hr, h1, h2⟩
          rcases List.mem_cons.mp hr with hfirst | hmem
          · subst hfirst
            simp only at h1 h2
            cases p with
            | zero => rfl
            | succ q =>
              have hq : q < (rest.takeWhile id).length := by omega
              have : rest.getD q false = true := by
                conv_lhs => rw [← htwdw]
                rw [List.getD_append _ _ _ q hq]
                exact takeWhile_id_getD rest q hq
              simpa using this
          · obtain ⟨r0, hr0, rfl⟩ := List.mem_map.mp hmem
            simp only at h1 h2
            have hp : 1 + (rest.takeWhile id).length ≤ p := by omega
            have hcov : coveredB (runsD (rest.dropWhile id) 0)
                (p - (0 + 1 + (rest.takeWhile id).length)) = true := by
              rw [coveredB_eq_true_iff]
              exact ⟨r0, hr0, by omega, by omega⟩
            have hval := (ih (rest.dropWhile id) hdwlen _).mp hcov
            cases p with
            | zero => omega
            | succ q =>
              have hq : (rest.takeWhile id).length ≤ q := by omega
              have : rest.getD q false = true := by
                conv_lhs => rw [← htwdw]
                rw [List.getD_append_right _ _ _ _ (by simpa using hq)]
                have harith : q - (rest.takeWhile id).length
                    = q + 1 - (0 + 1 + (rest.takeWhile id).length) := by omega
                rw [harith]
                exact hval
              simpa using this
        · intro hg
          cases p with
          | zero =>
            exact ⟨(0, 1 + (rest.takeWhile id).length),
              List.mem_cons_self _ _, by omega, by omega⟩
          | succ q =>
            by_cases hq : q < (rest.takeWhile id).length
            · exact ⟨(0, 1 + (rest.takeWhile id).length),
                List.mem_cons_self _ _, by omega, by omega⟩
            · push_neg at hq
              have hrest : rest.getD q false = true := by simpa using hg
              have hdwv : (rest.dropWhile id).getD
                  (q - (rest.takeWhile id).length) false = true := by
                conv_lhs at hrest => rw [← htwdw]
                rwa [List.getD_append_right _ _ _ _ (by simpa using hq)] at hrest
              have hcov := (ih (rest.dropWhile id) hdwlen _).mpr hdwv
              rw [coveredB_eq_true_iff] at hcov
              obtain ⟨r0, hr0, h1, h2⟩ := hcov
              refine ⟨(r0.1 + (0 + 1 + (rest.takeWhile id).length), r0.2),
                List.mem_cons_of_mem _ (List.mem_map.mpr ⟨r0, hr0, rfl⟩),
                by omega, by omega⟩

theorem coveredB_runsD (l : List Bool) (p : ℕ) :
    coveredB (runsD l 0) p = l.getD p false := by
  rcases hb : l.getD p false
  · rcases hc : coveredB (runsD l 0) p
    · rfl
    · have := (covered_runsD_aux l.length l (le_refl _) p).mp hc
      rw [hb] at this
      exact absurd this (by simp)
  · exact (covered_runsD_aux l.length l (le_refl _) p).mpr hb

theorem getD_eq_takeWhile_getD (l : List Bool) (q : ℕ)
    (hq : q < (l.takeWhile id).length) :
    l.getD q false = (l.takeWhile id).getD q false := by
  conv_lhs => rw [← List.takeWhile_append_dropWhile (p := id) (l := l)]
  rw [List.getD_append _ _ _ q hq]

theorem getD_eq_dropWhile_getD (l : List Bool) (q : ℕ)
    (hq : (l.takeWhile id).length ≤ q) :
    l.getD q false = (l.dropWhile id).getD (q - (l.takeWhile id).length) false := by
  conv_lhs => rw [← List.takeWhile_append_dropWhile (p := id) (l := l)]
  rw [List.getD_append_right _ _ _ _ (by simpa using hq)]

/-- Every run produced by `runsD` is a maximal foreground interval: it has
positive length, covers only foreground positions, and is bordered by
background (or the sequence boundary) on both sides. -/
theorem runsD_maximal_aux : ∀ (n : ℕ) (l : List Bool), l.length ≤ n →
    ∀ r ∈ runsD l 0, 0 < r.2
      ∧ (∀ j, j < r.2 → l.getD (r.1 + j) false = true)
      ∧ l.getD (r.1 + r.2) false = false
      ∧ (r.1 = 0 ∨ l.getD (r.1 - 1) false = false) := by
  intro n
  induction n with
  | zero =>
    intro l h r hr
    have hl : l = [] := List.eq_nil_of_length_eq_zero (Nat.le_zero.mp h)
    subst hl
    rw [runsD_nil] at hr
    simp at hr
  | succ k ih =>
    intro l h r hr
    rcases l with _ | ⟨b, rest⟩
    · rw [runsD_nil] at hr; simp at hr
    · have hlen : rest.length + 1 ≤ k + 1 := by simpa using h
      cases b
      · rw [runsD_false_cons, runsD_shift rest (0 + 1)] at hr
        obtain ⟨r0, hr0, rfl⟩ := List.mem_map.mp hr
        obtain ⟨hpos, hcov, hafter, hpre⟩ := ih rest (by omega) r0 hr0
        refine ⟨hpos, ?_, ?_, ?_⟩
        · intro j hj
          have harith : r0.1 + (0 + 1) + j = (r0.1 + j) + 1 := by omega
          rw [harith, List.getD_cons_succ]
          exact hcov j hj
        · have harith : r0.1 + (0 + 1) + r0.2 = (r0.1 + r0.2) + 1 := by omega
          rw [harith, List.getD_cons_succ]
          exact hafter
        · right
          have harith : r0.1 + (0 + 1) - 1 = r0.1 := by omega
          rw [harith]
          rcases hpre with h0 | hbg
          · rw [h0]
            simp
          · have harith2 : r0.1 = (r0.1 - 1) + 1 ∨ r0.1 = 0 := by omega
            rcases harith2 with h1 | h1
            · rw [h1, List.getD_cons_succ]
              exact hbg
            · rw [h1]; simp
      · rw [runsD_true_cons,
          runsD_shift (rest.dropWhile id) (0 + 1 + (rest.takeWhile id).length)]
          at hr
        have hdwlen : (rest.dropWhile id).length ≤ k := by
          have := length_dropWhile_le id rest
          omega
        have htwdw := List.takeWhile_append_dropWhile (p := id) (l := rest)
        rcases List.mem_cons.mp hr with hfirst | hmem
        · subst hfirst
          refine ⟨by omega, ?_, ?_, Or.inl rfl⟩
          · intro j hj
            simp only at hj
            cases j with
            | zero => rfl
            | succ q =>
              have hq : q < (rest.takeWhile id).length := by omega
              rw [show 0 + (q + 1) = q + 1 from by omega, List.getD_cons_succ,
                getD_eq_takeWhile_getD rest q hq]
              exact takeWhile_id_getD rest q hq
          · rw [show 0 + (1 + (rest.takeWhile id).length)
                = (rest.takeWhile id).length + 1 from by omega,
              List.getD_cons_succ,
              getD_eq_dropWhile_getD rest _ (le_refl _)]
            simpa using dropWhile_id_getD_zero rest
        · obtain ⟨r0, hr0, rfl⟩ := List.mem_map.mp hmem
          obtain ⟨hpos, hcov, hafter, hpre⟩ := ih (rest.dropWhile id) hdwlen r0 hr0
          have hr01 : 1 ≤ r0.1 := by
            by_contra h0
            push_neg at h0
            have h00 : r0.1 = 0 := by omega
            have := hcov 0 hpos
            rw [h00] at this
            simp only [Nat.add_zero, Nat.zero_add] at this
            rw [dropWhile_id_getD_zero rest] at this
            exact absurd this (by simp)
          refine ⟨hpos, ?_, ?_, ?_⟩
          · intro j hj
            have harith : r0.1 + (0 + 1 + (rest.takeWhile id).length) + j
                = ((rest.takeWhile id).length + (r0.1 + j)) + 1 := by omega
            rw [harith, List.getD_cons_succ,
              getD_eq_dropWhile_getD rest _ (by omega)]
            rw [show (rest.takeWhile id).length + (r0.1 + j)
                - (rest.takeWhile id).length = r0.1 + j from by omega]
            exact hcov j hj
          · have harith : r0.1 + (0 + 1 + (rest.takeWhile id).length) + r0.2
                = ((rest.takeWhile id).length + (r0.1 + r0.2)) + 1 := by omega
            rw [harith, List.getD_cons_succ,
              getD_eq_dropWhile_getD rest _ (by omega)]
            rw [show (rest.takeWhile id).length + (r0.1 + r0.2)
                - (rest.takeWhile id).length = r0.1 + r0.2 from by omega]
            exact hafter
          · right
            have hbg : (rest.dropWhile id).getD (r0.1 - 1) false = false := by
              rcases hpre with h0 | hbg
              · omega
              · exact hbg
            have harith : r0.1 + (0 + 1 + (rest.takeWhile id).length) - 1
                = ((rest.takeWhile id).length + (r0.1 - 1)) + 1 := by omega
            rw [harith, List.getD_cons_succ,
              getD_eq_dropWhile_getD rest _ (by omega)]
            rw [show (rest.takeWhile id).length + (r0.1 - 1)
                - (rest.takeWhile id).length = r0.1 - 1 from by omega]
            exact hbg

/-- Decoding the runs of a scan sequence reproduces it. -/
theorem decodeScan_runsD (l : List Bool) (n : ℕ) (hn : l.length = n) :
    decodeScan (runsD l 0) n = l := by
  unfold decodeScan
  apply List.ext_getElem
  · simp [hn]
  · intro j h1 h2
    simp only [List.getElem_map, List.getElem_range]
    rw [coveredB_runsD]
    exact getD_eq_getElem_of_lt l false j h2

/-! ## Codec lemmas: the column-major scan and its inverse -/

theorem getD_flatMap_blocks (g : ℕ → List Bool) (H : ℕ)
    (hH : ∀ w, (g w).length = H) :
    ∀ (ws : List ℕ) (k h : ℕ), k < ws.length → h < H →
      (ws.flatMap g).getD (k * H + h) false = (g (ws.getD k 0)).getD h false := by
  intro ws
  induction ws with
  | nil => intro k h hk _; simp at hk
  | cons w rest ih =>
    intro k h hk hh
    cases k with
    | zero =>
      simp only [List.flatMap_cons, Nat.zero_mul, Nat.zero_add]
      rw [List.getD_append _ _ _ h (by rw [hH w]; exact hh)]
      simp
    | succ k' =>
      simp only [List.flatMap_cons]
      have hge : (g w).length ≤ (k' + 1) * H + h := by
        rw [hH w]
        have : (k' + 1) * H = k' * H + H := by ring
        omega
      rw [List.getD_append_right _ _ _ _ hge]
      have harith : (k' + 1) * H + h - (g w).length = k' * H + h := by
        rw [hH w]
        have : (k' + 1) * H = k' * H + H := by ring
        omega
      rw [harith, ih k' h (by simpa using hk) hh]
      simp

theorem scanCM_length (m : List (List Bool)) (height width : ℕ) :
    (scanCM m height width).length = width * height := by
  unfold scanCM
  rw [List.length_flatMap]
  have hmap : List.map (List.length ∘ fun w =>
        List.map (fun h => ((m.getD h []).getD w false)) (List.range height))
        (List.range width)
      = List.replicate width height := by
    apply List.ext_getElem
    · simp
    · intro i h1 h2
      simp
  rw [hmap, List.sum_replicate, smul_eq_mul]

theorem scanCM_getD (m : List (List Bool)) (height width w h : ℕ)
    (hw : w < width) (hh : h < height) :
    (scanCM m height width).getD (w * height + h) false
      = (m.getD h []).getD w false := by
  unfold scanCM
  have hlen : ∀ w', ((List.range height).map
      (fun h' => (m.getD h' []).getD w' false)).length = height := by
    intro w'; simp
  rw [getD_flatMap_blocks _ height hlen (List.range width) w h
    (by simpa using hw) hh]
  have hrw : (List.range width).getD w 0 = w := by
    rw [getD_eq_getElem_of_lt _ 0 w (by simpa using hw), List.getElem_range]
  rw [hrw, getD_eq_getElem_of_lt _ false h (by simpa using hh),
    List.getElem_map, List.getElem_range]

theorem unscanCM_scanCM (m : List (List Bool)) (height width : ℕ)
    (hH : m.length = height) (hW : ∀ row ∈ m, row.length = width) :
    unscanCM (scanCM m height width) height width = m := by
  unfold unscanCM
  apply List.ext_getElem
  · simp [hH]
  · intro h h1 h2
    simp only [List.getElem_map, List.getElem_range]
    have hh : h < height := by simpa using h1
    have hrow : m[h].length = width := hW m[h] (List.getElem_mem h2)
    apply List.ext_getElem
    · simp [hrow]
    · intro w w1 w2
      simp only [List.getElem_map, List.getElem_range]
      have hw : w < width := by simpa using w1
      rw [scanCM_getD m height width w h hw hh,
        getD_eq_getElem_of_lt m [] h h2,
        getD_eq_getElem_of_lt _ false w w2]

/-! ## Codec lemmas: `mask2rle` and `rle2mask` -/

theorem space_mem_renderRuns : ∀ (rs : List (ℕ × ℕ)), rs ≠ [] →
    ' ' ∈ renderRuns rs := by
  intro rs h
  match rs with
  | [] => exact absurd rfl h
  | [r] => rw [renderRuns_single]; simp
  | r :: r2 :: rest => rw [renderRuns_cons_cons]; simp

theorem runsD_ne_nil (l : List Bool) (h : ¬ (l.all (fun b => !b) = true)) :
    runsD l 0 ≠ [] := by
  intro hnil
  apply h
  rw [List.all_eq_true]
  intro b hb
  obtain ⟨j, hj, rfl⟩ := List.mem_iff_getElem.mp hb
  have hcov := coveredB_runsD l j
  rw [hnil] at hcov
  have hfalse : l.getD j false = false := by rw [← hcov]; rfl
  rw [getD_eq_getElem_of_lt l false j hj] at hfalse
  simp [hfalse]

theorem mask2rle_eq_sentinel_or_runs (m : List (List Bool)) (height width : ℕ) :
    mask2rle m height width = "-1"
    ∨ ∃ rs, rs ≠ [] ∧ mask2rle m height width = String.mk (renderRuns rs) := by
  unfold mask2rle
  by_cases hall : (scanCM m height width).all (fun b => !b) = true
  · left; rw [if_pos hall]
  · right
    exact ⟨runsD (scanCM m height width) 0, runsD_ne_nil _ hall, by rw [if_neg hall]⟩

theorem mask2rle_ne_one (m : List (List Bool)) (height width : ℕ) :
    mask2rle m height width ≠ "1" := by
  rcases mask2rle_eq_sentinel_or_runs m height width with h | ⟨rs, hne, h⟩
  · rw [h]; decide
  · rw [h]
    intro hcontra
    have hdata : renderRuns rs = ['1'] := by
      have h2 := congrArg String.data hcontra
      rwa [show (String.mk (renderRuns rs)).data = renderRuns rs from rfl,
        show ("1" : String).data = ['1'] from by decide] at h2
    have hsp := space_mem_renderRuns rs hne
    rw [hdata] at hsp
    exact absurd hsp (by decide)

theorem mask2rle_ne_blank (m : List (List Bool)) (height width : ℕ) :
    mask2rle m height width ≠ "" := by
  rcases mask2rle_eq_sentinel_or_runs m height width with h | ⟨rs, hne, h⟩
  · rw [h]; decide
  · rw [h]
    intro hcontra
    have hdata : renderRuns rs = [] := by
      have h2 := congrArg String.data hcontra
      rwa [show (String.mk (renderRuns rs)).data = renderRuns rs from rfl,
        show ("" : String).data = [] from by decide] at h2
    have hsp := space_mem_renderRuns rs hne
    rw [hdata] at hsp
    exact absurd hsp (by decide)

theorem scanCM_all_false_of_allzero (m : List (List Bool)) (height width : ℕ)
    (hz : ∀ row ∈ m, ∀ b ∈ row, b = false) :
    (scanCM m height width).all (fun b => !b) = true := by
  rw [List.all_eq_true]
  intro b hb
  unfold scanCM at hb
  simp only [List.mem_flatMap, List.mem_map, List.mem_range] at hb
  obtain ⟨w, _, h, _, rfl⟩ := hb
  by_cases hhm : h < m.length
  · rw [getD_eq_getElem_of_lt m [] h hhm]
    by_cases hwr : w < m[h].length
    · rw [getD_eq_getElem_of_lt _ false w hwr]
      have := hz m[h] (List.getElem_mem hhm) (m[h][w]) (List.getElem_mem hwr)
      simp [this]
    · rw [List.getD_eq_default _ _ (by omega)]
      rfl
  · have hout : m.getD h [] = [] := List.getD_eq_default m [] (by omega)
    rw [hout]
    rfl

theorem eq_zeroMask_of_scan_all_false (m : List (List Bool))
    (height width : ℕ) (hv : ValidMask m height width)
    (hall : (scanCM m height width).all (fun b => !b) = true) :
    m = zeroMask height width := by
  obtain ⟨hH, hW⟩ := hv
  unfold zeroMask
  apply List.ext_getElem
  · simp [hH]
  · intro h h1 h2
    rw [List.getElem_replicate]
    have hh : h < height := by rw [← hH]; exact h1
    have hrowlen : m[h].length = width := hW m[h] (List.getElem_mem h1)
    apply List.ext_getElem
    · simp [hrowlen]
    · intro w w1 w2
      rw [List.getElem_replicate]
      have hw : w < width := by rw [← hrowlen]; exact w1
      have hidx : w * height + h < (scanCM m height width).length := by
        rw [scanCM_length]
        calc w * height + h < w * height + height := by omega
          _ = (w + 1) * height := by ring
          _ ≤ width * height := Nat.mul_le_mul_right height (by omega)
      have hmem : (scanCM m height width)[w * height + h] ∈
          scanCM m height width := List.getElem_mem hidx
      have hbv := (List.all_eq_true.mp hall) _ hmem
      have hfalse : (scanCM m height width)[w * height + h] = false := by
        simpa using hbv
      have hgd : (scanCM m height width).getD (w * height + h) false = false := by
        rw [getD_eq_getElem_of_lt _ false _ hidx]
        exact hfalse
      rw [scanCM_getD m height width w h hw hh,
        getD_eq_getElem_of_lt m [] h h1,
        getD_eq_getElem_of_lt _ false w w1] at hgd
      exact hgd

theorem rle2mask_mask2rle (m : List (List Bool)) (height width : ℕ)
    (hv : ValidMask m height width) :
    rle2mask (mask2rle m height width) height width = some m := by
  unfold mask2rle
  by_cases hall : (scanCM m height width).all (fun b => !b) = true
  · rw [if_pos hall]
    unfold rle2mask
    rw [if_pos rfl, ← eq_zeroMask_of_scan_all_false m height width hv hall]
  · rw [if_neg hall]
    have hrs : runsD (scanCM m height width) 0 ≠ [] := runsD_ne_nil _ hall
    unfold rle2mask
    have hne : String.mk (renderRuns (runsD (scanCM m height width) 0))
        ≠ "-1" := by
      intro hcontra
      have hdata : renderRuns (runsD (scanCM m height width) 0) = ['-', '1'] := by
        have h2 := congrArg String.data hcontra
        rwa [show (String.mk (renderRuns (runsD (scanCM m height width) 0))).data
            = renderRuns (runsD (scanCM m height width) 0) from rfl,
          show ("-1" : String).data = ['-', '1'] from by decide] at h2
      have hsp := space_mem_renderRuns _ hrs
      rw [hdata] at hsp
      exact absurd hsp (by decide)
    rw [if_neg hne,
      show (String.mk (renderRuns (runsD (scanCM m height width) 0))).data
        = renderRuns (runsD (scanCM m height width) 0) from rfl,
      parseRuns_renderRuns _ hrs]
    show some (unscanCM (decodeScan (runsD (scanCM m height width) 0)
      (height * width)) height width) = some m
    rw [decodeScan_runsD _ (height * width) (by rw [scanCM_length]; ring),
      unscanCM_scanCM m height width hv.1 hv.2]

/-! ## C8: the codec round trip -/

/-- C8: for every valid binary mask of the declared height×width, decoding
its run-length encoding reproduces it exactly; the all-zero mask encodes
to the distinguished sentinel string `"-1"` (not the empty string), which
decodes back to the all-zero mask; and the encoded runs are exactly the
maximal foreground intervals of the column-major scan. -/
theorem c8_rle_round_trip (m : List (List Bool)) (height width : ℕ)
    (hv : ValidMask m height width) :
    rle2mask (mask2rle m height width) height width = some m
    ∧ ((∀ row ∈ m, ∀ b ∈ row, b = false) → mask2rle m height width = "-1")
    ∧ ("-1" : String) ≠ ""
    ∧ rle2mask "-1" height width = some (zeroMask height width)
    ∧ (∀ r ∈ runsD (scanCM m height width) 0,
        0 < r.2
        ∧ (∀ j, j < r.2 → (scanCM m height width).getD (r.1 + j) false = true)
        ∧ (scanCM m height width).getD (r.1 + r.2) false = false
        ∧ (r.1 = 0 ∨ (scanCM m height width).getD (r.1 - 1) false = false)) := by
  refine ⟨rle2mask_mask2rle m height width hv, ?_, by decide, ?_, ?_⟩
  · intro hz
    unfold mask2rle
    rw [if_pos (scanCM_all_false_of_allzero m height width hz)]
  · unfold rle2mask
    rw [if_pos rfl]
  · exact runsD_maximal_aux _ _ (le_refl _)

/-- C8 witness at a concrete 2×2 mask with two separated foreground
pixels. -/
theorem c8_rle_round_trip_witness :
    rle2mask (mask2rle [[true, false], [false, true]] 2 2) 2 2
      = some [[true, false], [false, true]] :=
  (c8_rle_round_trip [[true, false], [false, true]] 2 2
    ⟨rfl, by decide⟩).1

/-! ## C1: the terminal state of the merged table -/

/-- After applying the sequence of (identifier, encoding) writes, every
record descends from an input record with the same identifier and either
kept its field (no write matched its identifier) or carries the payload
of one of the matching writes. -/
theorem applyWrites_mem : ∀ (ws : List (String × String)) (df : List Record),
    ∀ r' ∈ ws.foldl (fun d w => d.map
        (fun r => if r.ImageId = w.1 then ⟨r.ImageId, w.2⟩ else r)) df,
      ∃ r ∈ df, r'.ImageId = r.ImageId
        ∧ ((r'.EncodedPixels = r.EncodedPixels ∧ ∀ w ∈ ws, w.1 ≠ r.ImageId)
          ∨ (∃ w ∈ ws, w.1 = r.ImageId ∧ r'.EncodedPixels = w.2)) := by
  intro ws
  induction ws with
  | nil =>
    intro df r' hr'
    exact ⟨r', hr', rfl, Or.inl ⟨rfl, by simp⟩⟩
  | cons w ws ih =>
    intro df r' hr'
    rw [List.foldl_cons] at hr'
    obtain ⟨r1, hr1, hid, hcase⟩ := ih _ r' hr'
    obtain ⟨r, hr, hstep⟩ := List.mem_map.mp hr1
    by_cases hw : r.ImageId = w.1
    · rw [if_pos hw] at hstep
      refine ⟨r, hr, by rw [hid, ← hstep], ?_⟩
      rcases hcase with ⟨henc, _⟩ | ⟨w', hw', h1, h2⟩
      · right
        refine ⟨w, List.mem_cons_self _ _, hw.symm, ?_⟩
        rw [henc, ← hstep]
      · right
        refine ⟨w', List.mem_cons_of_mem _ hw', ?_, h2⟩
        rw [h1, ← hstep]
    · rw [if_neg hw] at hstep
      subst hstep
      refine ⟨r, hr, hid, ?_⟩
      rcases hcase with ⟨henc, hnone⟩ | ⟨w', hw', h1, h2⟩
      · left
        refine ⟨henc, ?_⟩
        intro w'' hw''
        rcases List.mem_cons.mp hw'' with heq | hmem
        · subst heq
          intro hcontra
          exact hw hcontra.symm
        · exact hnone w'' hmem
      · right
        exact ⟨w', List.mem_cons_of_mem _ hw', h1, h2⟩

/-- The write phase never changes the identifier column. -/
theorem applyWrites_ids : ∀ (ws : List (String × String)) (df : List Record),
    (ws.foldl (fun d w => d.map
        (fun r => if r.ImageId = w.1 then ⟨r.ImageId, w.2⟩ else r)) df).map
      (fun r => r.ImageId)
      = df.map (fun r => r.ImageId) := by
  intro ws
  induction ws with
  | nil => intro df; rfl
  | cons w ws ih =>
    intro df
    rw [List.foldl_cons, ih, List.map_map]
    apply List.map_congr_left
    intro r _
    by_cases h : r.ImageId = w.1 <;> simp [h]

/-- C1: after a successful Stage-2 run on a classification table whose
fields all carry one of the two classification sentinels, and with as
many predicted masks as selected identifiers, the merged table keeps
exactly the original identifiers, and every record's encoded-mask field
is either the negative sentinel `"-1"` or a run-length encoding produced
by the codec at the declared 1024×1024 dimensions — never the pending
sentinel `"1"` and never a blank string. -/
theorem c1_final_table_wellformed (stem : String → String)
    (load : String → ℕ → ℕ → Img) (m : SegModelInput) (df : List Record)
    (fpaths : List String) (channels img_size : ℕ) (tta : Bool)
    (threshold : ℚ) (min_roi_size : ℕ) (df' : List Record)
    (hwf : ∀ r ∈ df, r.EncodedPixels = "1" ∨ r.EncodedPixels = "-1")
    (hcount : (stage2Masks stem load m df fpaths img_size channels tta
        threshold min_roi_size).length = (stage2SegIds df).length)
    (hok : (Stage2 stem load m df fpaths channels img_size tta threshold
        min_roi_size).1 = .ok df') :
    df'.map (fun r => r.ImageId) = df.map (fun r => r.ImageId)
    ∧ ∀ r ∈ df',
      (r.EncodedPixels = "-1"
        ∨ ∃ mask, r.EncodedPixels = mask2rle mask 1024 1024)
      ∧ r.EncodedPixels ≠ "1"
      ∧ r.EncodedPixels ≠ "" := by
  have hdf' : df' = edit_classification_df df
      (stage2Masks stem load m df fpaths img_size channels tta threshold
        min_roi_size) (stage2SegIds df) := by
    by_cases hcond : (stage2Fpaths stem df fpaths).map stem = stage2SegIds df
    · simp only [Stage2] at hok
      rw [if_pos hcond] at hok
      exact (Except.ok.inj hok).symm
    · simp only [Stage2] at hok
      rw [if_neg hcond] at hok
      exact absurd hok (by simp)
  subst hdf'
  set masks := stage2Masks stem load m df fpaths img_size channels tta
    threshold min_roi_size with hmasks
  set rles := masks.map (fun mask => mask2rle mask 1024 1024) with hrles
  set ws := (stage2SegIds df).zip rles with hws
  have hrleslen : (stage2SegIds df).length ≤ rles.length := by
    rw [hrles, List.length_map, hcount]
  constructor
  · unfold edit_classification_df
    rw [List.map_map]
    have hstep : ∀ r ∈ (((stage2SegIds df).zip
        (masks.map (fun pred => mask2rle pred 1024 1024))).foldl
        (fun d w => d.map
          (fun r => if r.ImageId = w.1 then ⟨r.ImageId, w.2⟩ else r)) df),
        ((fun r : Record => r.ImageId) ∘
          (fun r : Record => if r.EncodedPixels = ""
            then (⟨r.ImageId, "-1"⟩ : Record) else r)) r
          = (fun r : Record => r.ImageId) r := by
      intro r _
      by_cases h : r.EncodedPixels = "" <;> simp [h]
    rw [List.map_congr_left hstep]
    exact applyWrites_ids _ df
  · intro r' hr'
    obtain ⟨r1, hr1, hbf⟩ := List.mem_map.mp hr'
    by_cases hblank : r1.EncodedPixels = ""
    · rw [if_pos hblank] at hbf
      rw [← hbf]
      refine ⟨Or.inl rfl, ?_, ?_⟩
      · show ("-1" : String) ≠ "1"
        decide
      · show ("-1" : String) ≠ ""
        decide
    · rw [if_neg hblank] at hbf
      subst hbf
      obtain ⟨r, hr, _, hcase⟩ := applyWrites_mem ws df r1 hr1
      rcases hcase with ⟨henc, hnone⟩ | ⟨w, hw, _, hw2⟩
      · rcases hwf r hr with hpend | hneg
        · exfalso
          have hmem : r.ImageId ∈ stage2SegIds df := by
            unfold stage2SegIds
            rw [(sortStr_perm _).mem_iff]
            exact List.mem_map.mpr
              ⟨r, List.mem_filter.mpr ⟨hr, by simp [hpend]⟩, rfl⟩
          have hmemfst : r.ImageId ∈ ws.map Prod.fst := by
            rw [hws, List.map_fst_zip _ _ hrleslen]
            exact hmem
          obtain ⟨w, hwmem, hw1⟩ := List.mem_map.mp hmemfst
          exact hnone w hwmem hw1
        · rw [henc, hneg]
          exact ⟨Or.inl rfl, by decide, by decide⟩
      · have hw2mem : w.2 ∈ rles := (List.of_mem_zip hw).2
        obtain ⟨mask, _, hmrle⟩ := List.mem_map.mp hw2mem
        rw [hw2, ← hmrle]
        exact ⟨Or.inr ⟨mask, rfl⟩, mask2rle_ne_one mask 1024 1024,
          mask2rle_ne_blank mask 1024 1024⟩

/-- C1 witness on a concrete negative-only table. -/
theorem c1_final_table_wellformed_witness :
    ([⟨"a", "-1"⟩] : List Record).map (fun r => r.ImageId)
      = ([⟨"a", "-1"⟩] : List Record).map (fun r => r.ImageId)
    ∧ ∀ r ∈ ([⟨"a", "-1"⟩] : List Record),
      (r.EncodedPixels = "-1"
        ∨ ∃ mask, r.EncodedPixels = mask2rle mask 1024 1024)
      ∧ r.EncodedPixels ≠ "1"
      ∧ r.EncodedPixels ≠ "" :=
  c1_final_table_wellformed idStem noLoad (.one emptyModel) [⟨"a", "-1"⟩]
    [] 1 2 false (1/2) 0 [⟨"a", "-1"⟩]
    (by decide) rfl rfl

end PneumoSeg
